import Mathlib

/-!
Verification of the markup-to-rich-text formatting engine of the
`gogemini-slides-agent` repository (`internal/formatting/processor.go`).

Strings are modelled as `List Char` (Go strings are UTF-8 byte sequences;
the parser's regexes only match at character boundaries, so the character
list view is faithful to the byte view for parsing).  Where the Go code
measures strings with `len` — a count of UTF-8 *bytes* — the model uses
`glen`, which sums the UTF-8 encoded width of each character.

The bold regular expression `\*\*(.*?)\*\*` (non-greedy, `.` does not
match a newline) is modelled by an explicit leftmost-shortest scan:
`splitFirstPair` finds the first occurrence of two consecutive `*`
characters, and a match is the first pair together with the closing pair
found by re-scanning from just after the opener (stopping at a newline,
which `.` cannot cross).  If the first pair has no closer there is no
match at all in the remaining line: any later pair would itself have been
a closer for the first one.
-/

namespace Formatting

/-- Characters of a Lean string literal, used to write concrete inputs. -/
def str (s : String) : List Char := s.data

/-- `TextSegment` from processor.go: a piece of text with formatting
information.  `level` is the Go `int` field (0 = main bullet, 1 = sub-bullet). -/
structure TextSegment where
  text : List Char
  isBold : Bool
  isBullet : Bool
  level : Int
deriving DecidableEq, Repr

/-- Split a character list at the first occurrence of two consecutive `*`
characters: `some (before, after)` with the pair removed, `none` if no such
pair exists.  Models one search step of the Go regexp `\*\*(.*?)\*\*`. -/
def splitFirstPair : List Char → Option (List Char × List Char)
  | a :: b :: rest =>
    if a = '*' ∧ b = '*' then some ([], rest)
    else (splitFirstPair (b :: rest)).map (fun pr => (a :: pr.1, pr.2))
  | _ => none

/-- Like `splitFirstPair` but fails upon reaching a newline before a pair:
the closing scan of `\*\*(.*?)\*\*`, whose `.` does not match `\n`. -/
def splitFirstPairNoNl : List Char → Option (List Char × List Char)
  | a :: b :: rest =>
    if a = '\n' then none
    else if a = '*' ∧ b = '*' then some ([], rest)
    else (splitFirstPairNoNl (b :: rest)).map (fun pr => (a :: pr.1, pr.2))
  | _ => none

/-- Split a character list at the first newline. -/
def splitAtNl : List Char → Option (List Char × List Char)
  | [] => none
  | a :: rest =>
    if a = '\n' then some ([], rest)
    else (splitAtNl rest).map (fun pr => (a :: pr.1, pr.2))

/-- Fueled worker for `parseBoldInText` (processor.go lines 62-102).  The
fuel argument only bounds the recursion depth; it is set to the length of
the text, which the recursion (always on a strict sub-suffix) never
exhausts.  Each iteration mirrors one regex match of `boldPattern`: text
before the match (if non-empty) becomes a plain segment, the captured
group a bold segment; when no (further) match exists the whole remaining
text, dangling `**` included, becomes one plain segment. -/
def parseBoldGo : Nat → List Char → Bool → Int → List TextSegment
  | 0, t, isB, lvl => if t = [] then [] else [⟨t, false, isB, lvl⟩]
  | fuel + 1, t, isB, lvl =>
    match splitFirstPair t with
    | none => if t = [] then [] else [⟨t, false, isB, lvl⟩]
    | some (pre, rest) =>
      match splitFirstPair rest with
      | none => if t = [] then [] else [⟨t, false, isB, lvl⟩]
      | some (content, rest2) =>
        (if pre = [] then [] else [⟨pre, false, isB, lvl⟩]) ++
          ⟨content, true, isB, lvl⟩ :: parseBoldGo fuel rest2 isB lvl

/-- `parseBoldInText` from processor.go: extracts bold markup from text and
creates segments. -/
def parseBoldInText (t : List Char) (isBullet : Bool) (level : Int) : List TextSegment :=
  parseBoldGo t.length t isBullet level

/-- `strings.Split text "\n"`. -/
def splitNl : List Char → List (List Char)
  | [] => [[]]
  | c :: rest =>
    if c = '\n' then [] :: splitNl rest
    else
      match splitNl rest with
      | [] => [[c]]
      | l :: ls => (c :: l) :: ls

/-- `strings.Join lines "\n"`. -/
def joinNl : List (List Char) → List Char
  | [] => []
  | [l] => l
  | l :: ls => l ++ '\n' :: joinNl ls

/-- `bulletPattern.MatchString line` for a newline-free line: the regexp
`^• (.*)$` matches exactly when the line starts with `• `. -/
def bulletMatch : List Char → Bool
  | a :: b :: _ => decide (a = '•') && decide (b = ' ')
  | _ => false

/-- `subBulletPattern.MatchString line`: the regexp `^  ◦ (.*)$` matches
exactly when the line starts with two spaces, `◦`, and a space. -/
def subBulletMatch : List Char → Bool
  | a :: b :: c :: d :: _ =>
    decide (a = ' ') && decide (b = ' ') && decide (c = '◦') && decide (d = ' ')
  | _ => false

/-- Per-line body of `ParseMarkup` (processor.go lines 40-50):
`ReplaceAllString line "$1"` on an anchored whole-line match is dropping
the matched bullet prefix. -/
def processLine (line : List Char) : List TextSegment :=
  if bulletMatch line then parseBoldInText (line.drop 2) true 0
  else if subBulletMatch line then parseBoldInText (line.drop 4) true 1
  else parseBoldInText line false 0

/-- The inter-line segment `TextSegment{Text: "\n"}` (Go zero values for
the remaining fields). -/
def newlineSegment : TextSegment := ⟨['\n'], false, false, 0⟩

/-- `ParseMarkup` from processor.go: split on newlines, process each line,
and append a newline segment after a line exactly when the Go guard
`line != lines[len(lines)-1]` holds — a comparison of the line's *value*
with the value of the last line. -/
def ParseMarkup (text : List Char) : List TextSegment :=
  let lines := splitNl text
  (lines.map (fun line =>
    processLine line ++ if line = lines.getLastD [] then [] else [newlineSegment])).flatten

/-- One full pass of `boldPattern.ReplaceAllString text "$1"` over the whole
input (fueled worker): each match is replaced by its captured group; when
an opening pair has no closing pair before the next newline, no match can
start before that newline, so the scan resumes after it. -/
def replaceBoldGo : Nat → List Char → List Char
  | 0, t => t
  | fuel + 1, t =>
    match splitFirstPair t with
    | none => t
    | some (pre, rest) =>
      match splitFirstPairNoNl rest with
      | some (content, rest2) => pre ++ content ++ replaceBoldGo fuel rest2
      | none =>
        match splitAtNl rest with
        | some (pre2, rest2) => pre ++ '*' :: '*' :: pre2 ++ '\n' :: replaceBoldGo fuel rest2
        | none => t

/-- `boldPattern.ReplaceAllString text "$1"` from `CleanText`. -/
def replaceBoldAll (t : List Char) : List Char := replaceBoldGo t.length t

/-- Per-line bullet stripping of `CleanText` (processor.go lines 209-216). -/
def stripBulletLine (line : List Char) : List Char :=
  if bulletMatch line then line.drop 2
  else if subBulletMatch line then line.drop 4
  else line

/-- `CleanText` from processor.go: strip bold markup from the whole text,
then strip bullet markers line by line, and re-join. -/
def CleanText (text : List Char) : List Char :=
  joinNl ((splitNl (replaceBoldAll text)).map stripBulletLine)

/-- UTF-8 encoded width of a character: what one character contributes to
Go's `len` of a string. -/
def utf8Len (c : Char) : Nat :=
  if c.toNat < 0x80 then 1
  else if c.toNat < 0x800 then 2
  else if c.toNat < 0x10000 then 3
  else 4

/-- Go `len` of a string modelled as a character list: total UTF-8 bytes. -/
def glen (t : List Char) : Nat := (t.map utf8Len).sum

/-- In-order concatenation of the texts of a segment list. -/
def concatTexts (segs : List TextSegment) : List Char :=
  (segs.map TextSegment.text).flatten

/-- The accumulator state of the single loop in `ToSlidesRequests`
(processor.go lines 113-143).  `bulletRun` bundles Go's
`bulletStart`/`currentBulletLevel` pair, with `none` for the `-1` sentinel. -/
structure CompileState where
  pos : Nat
  plainText : List Char
  boldRanges : List (Nat × Nat)
  bulletRanges : List (Nat × Nat × Int)
  bulletRun : Option (Nat × Int)
deriving DecidableEq, Repr

/-- Initial compiler state. -/
def initState : CompileState := ⟨0, [], [], [], none⟩

/-- One iteration of the segment loop in `ToSlidesRequests`. -/
def compileStep (st : CompileState) (seg : TextSegment) : CompileState :=
  let segStart := st.pos
  let segEnd := st.pos + glen seg.text
  let plainText := st.plainText ++ seg.text
  let boldRanges :=
    if seg.isBold then st.boldRanges ++ [(segStart, segEnd)] else st.boldRanges
  let next :=
    if seg.isBullet then
      match st.bulletRun with
      | none => (st.bulletRanges, some (segStart, seg.level))
      | some br => (st.bulletRanges, some br)
    else
      match st.bulletRun with
      | none => (st.bulletRanges, (none : Option (Nat × Int)))
      | some (s, lvl) => (st.bulletRanges ++ [(s, st.pos, lvl)], none)
  ⟨segEnd, plainText, boldRanges, next.1, next.2⟩

/-- Closing of the final bullet range after the loop
(processor.go lines 145-150). -/
def finalize (st : CompileState) : CompileState :=
  match st.bulletRun with
  | none => st
  | some (s, lvl) =>
    ⟨st.pos, st.plainText, st.boldRanges, st.bulletRanges ++ [(s, st.pos, lvl)], none⟩

/-- The range-collection phase of `ToSlidesRequests`. -/
def compile (segs : List TextSegment) : CompileState :=
  finalize (List.foldl compileStep initState segs)

/-- The emitted edit operations, keeping exactly the fields of the Slides
requests that `ToSlidesRequests` fills in. -/
inductive Request where
  | insertText (objectId : String) (insertionIndex : Nat) (text : List Char)
  | updateTextStyle (objectId : String) (bold : Bool) (startIndex endIndex : Nat)
  | createParagraphBullets (objectId : String) (startIndex endIndex : Nat)
      (bulletPreset : String)
deriving DecidableEq, Repr

/-- Bullet preset choice (processor.go lines 181-184): default preset,
overridden when the range's level equals 1. -/
def presetForLevel (lvl : Int) : String :=
  if lvl = 1 then "BULLET_HOLLOW_CIRCLE_SQUARE" else "BULLET_DISC_CIRCLE_SQUARE"

/-- `ToSlidesRequests` from processor.go: one `InsertText` with the
concatenated plain text, then one `UpdateTextStyle` per bold range in
discovery order, then one `CreateParagraphBullets` per bullet range. -/
def ToSlidesRequests (segments : List TextSegment) (objectID : String) : List Request :=
  let st := compile segments
  Request.insertText objectID 0 st.plainText ::
    (st.boldRanges.map (fun pr => Request.updateTextStyle objectID true pr.1 pr.2) ++
      st.bulletRanges.map (fun tr =>
        Request.createParagraphBullets objectID tr.1 tr.2.1 (presetForLevel tr.2.2)))

/-- Whether two consecutive `*` characters occur anywhere in the text:
the literal bold-delimiter pair of the markup language. -/
def hasPair : List Char → Bool
  | a :: b :: rest => decide (a = '*' ∧ b = '*') || hasPair (b :: rest)
  | _ => false

/-- Whether the text begins with a bullet or sub-bullet marker. -/
def hasBulletMark (t : List Char) : Bool := bulletMatch t || subBulletMatch t

/-- Whether the text ends with a `*` character. -/
def endsStar : List Char → Bool
  | [] => false
  | [a] => decide (a = '*')
  | _ :: b :: t => endsStar (b :: t)

/-- Whether a newline-free text contains no bold match at all: either it
has no `*`-pair, or the text after its first `*`-pair has no further pair
to close a span with. -/
def noMatchB (t : List Char) : Bool :=
  match splitFirstPair t with
  | none => true
  | some pr => (splitFirstPair pr.2).isNone

/-- The object id carried by an emitted operation. -/
def oidOf : Request → String
  | .insertText oid _ _ => oid
  | .updateTextStyle oid _ _ _ => oid
  | .createParagraphBullets oid _ _ _ => oid

/-- An emitted operation with its object id blanked out: what remains of a
request apart from the passthrough id. -/
def stripOid : Request → Request
  | .insertText _ i t => .insertText "" i t
  | .updateTextStyle _ b s e => .updateTextStyle "" b s e
  | .createParagraphBullets _ s e p => .createParagraphBullets "" s e p

/-- Whether an operation's range (if any) lies within `[0, n]`, `n` being
the length of the inserted text in the same units (Go `len`) the compiler
uses for offsets. -/
def reqBounded (n : Nat) : Request → Bool
  | .insertText _ _ _ => true
  | .updateTextStyle _ _ s e => decide (s ≤ e) && decide (e ≤ n)
  | .createParagraphBullets _ s e _ => decide (s ≤ e) && decide (e ≤ n)

/-- Modelled from the spec: the bullet ranges described in §3/§4.2 — one
range per *maximal* contiguous run of segments with `isBullet = true`,
starting at the run's start offset, ending at the offset where the first
subsequent non-bullet segment begins (equivalently, at the cursor after
the run's last segment, which is also the final cursor when the sequence
ends inside the run), carrying the level of the run's *first* segment.
Stated independently of the compiler so the compiler can be compared
against it. -/
def bulletRunsSpec : List TextSegment → Nat → List (Nat × Nat × Int)
  | [], _ => []
  | seg :: rest, pos =>
    if seg.isBullet then
      let endPos := pos + glen seg.text + glen (concatTexts (rest.takeWhile (fun s => s.isBullet)))
      (pos, endPos, seg.level) :: bulletRunsSpec (rest.dropWhile (fun s => s.isBullet)) endPos
    else bulletRunsSpec rest (pos + glen seg.text)
termination_by segs _ => segs.length
decreasing_by
  · have h : ∀ (l : List TextSegment),
        (l.dropWhile (fun s => s.isBullet)).length ≤ l.length := by
      intro l
      induction l with
      | nil => exact Nat.le_refl _
      | cons a l ih =>
        cases ha : a.isBullet with
        | true =>
          rw [List.dropWhile_cons_of_pos ha]
          exact Nat.le_trans ih (Nat.le_succ _)
        | false =>
          rw [List.dropWhile_cons_of_neg (by simp [ha])]
    exact Nat.lt_succ_of_le (h rest)
  · exact Nat.lt_succ_of_le (Nat.le_refl _)

example : splitNl (str "a\nb\na") = [['a'], ['b'], ['a']] := by decide

example : ParseMarkup (str "This is **bold** text") =
    [⟨str "This is ", false, false, 0⟩, ⟨str "bold", true, false, 0⟩,
      ⟨str " text", false, false, 0⟩] := by decide

example : ParseMarkup (str "• This is a bullet point") =
    [⟨str "This is a bullet point", false, true, 0⟩] := by decide

example : ParseMarkup (str "  ◦ This is a sub-bullet") =
    [⟨str "This is a sub-bullet", false, true, 1⟩] := by decide

example : CleanText (str "• First point\n  ◦ Sub point\n• Second point") =
    str "First point\nSub point\nSecond point" := by decide

/-- Claim C1 (code_bug evidence): on the input `"a\nb\na"`, whose first
line is identical to the last line, `ParseMarkup` emits no newline segment
between the first and second lines' segment groups: the guard
`line != lines[len(lines)-1]` compares the line's value, not its
position, so the output has only one newline segment instead of two. -/
theorem parseMarkup_drops_newline_when_line_equals_last :
    ParseMarkup (str "a\nb\na") =
      [⟨['a'], false, false, 0⟩, ⟨['b'], false, false, 0⟩,
        ⟨['\n'], false, false, 0⟩, ⟨['a'], false, false, 0⟩] := by decide

/-- Claim C2 (counterexample): on the input `"• • **a**b**"` the parser
emits the segment `"• "` (a leading bullet marker, exposed because the
line's content itself begins with a marker) and the segment `"b**"`
(which contains the literal bold-delimiter pair, left over from the
dangling unmatched `**`), so not every segment text is free of markup. -/
theorem segment_text_can_retain_markup_cex :
    (ParseMarkup (str "• • **a**b**")).any
      (fun seg => hasPair seg.text || hasBulletMark seg.text) = true := by decide

/-- Claim C3 (counterexample): parser-concatenation followed by `CleanText`
differs from `CleanText` on the raw string, in two independent ways.  For
`"• • x"` the parser strips one bullet marker and `CleanText` then strips
the newly exposed one, while `CleanText` on the raw string strips only
once.  For `"a\nb\na"` the parser drops the newline segment after the
first line (its text equals the last line's), so the concatenation has
fewer newlines than the raw string. -/
theorem cleanText_parse_roundtrip_cex :
    CleanText (concatTexts (ParseMarkup (str "• • x"))) ≠ CleanText (str "• • x") ∧
      CleanText (concatTexts (ParseMarkup (str "a\nb\na"))) ≠ CleanText (str "a\nb\na") := by
  decide

/-- Claim C4 (counterexample): `CleanText` is not idempotent.  On
`"• • a"` one application strips the line's bullet prefix and exposes a
second bullet prefix, which a second application then strips. -/
theorem cleanText_not_idempotent_cex :
    CleanText (CleanText (str "• • a")) ≠ CleanText (str "• • a") := by decide

/-- Claim C5 (code_bug evidence): the compiler advances its cursor by Go
`len`, a UTF-8 *byte* count.  For the input `"**é**x"` the emitted bold
range is `[0, 2)` — `é` encodes to two bytes — although `é` is a single
decoded character, so the claimed code-point range would be `[0, 1)`. -/
theorem toSlidesRequests_offsets_count_bytes :
    ToSlidesRequests (ParseMarkup (str "**é**x")) "id" =
        [.insertText "id" 0 (str "éx"), .updateTextStyle "id" true 0 2] ∧
      (str "é").length = 1 ∧ glen (str "é") = 2 := by decide

/-- Claim C6 (counterexample): for `"• **Key point** with details"` the
flattened text `"Key point with details"` has 22 characters, so the
emitted bullet range is `[0, 22)`, not `[0, 18)` as the claim states; the
operation list with an `[0, 18)` bullet range is not what is emitted. -/
theorem example_bullet_range_cex :
    ToSlidesRequests (ParseMarkup (str "• **Key point** with details")) "id" ≠
      [.insertText "id" 0 (str "Key point with details"),
        .updateTextStyle "id" true 0 9,
        .createParagraphBullets "id" 0 18 "BULLET_DISC_CIRCLE_SQUARE"] := by decide

/-- Claim C6 (amended): for `"• **Key point** with details"`, `ParseMarkup`
yields exactly the segments `{"Key point", bold, bullet lvl 0}` and
`{" with details", bullet lvl 0}`, and compiling them yields exactly one
`InsertText`, one bold-style operation with range `[0, 9)`, and one
bullet-preset operation with range `[0, 22)` at level 0. -/
theorem example_bullet_range_actual :
    ParseMarkup (str "• **Key point** with details") =
        [⟨str "Key point", true, true, 0⟩, ⟨str " with details", false, true, 0⟩] ∧
      ToSlidesRequests (ParseMarkup (str "• **Key point** with details")) "id" =
        [.insertText "id" 0 (str "Key point with details"),
          .updateTextStyle "id" true 0 9,
          .createParagraphBullets "id" 0 22 "BULLET_DISC_CIRCLE_SQUARE"] := by decide

/-- Claim C8: compiling the empty input produces exactly one `InsertText`
operation with empty text and no style or bullet operations, for every
target object id. -/
theorem empty_input_single_insertText (oid : String) :
    ToSlidesRequests (ParseMarkup (str "")) oid = [.insertText oid 0 []] := rfl

/-- Claim C9: the target object id is pure passthrough — the operation
lists for two ids agree once the id field is blanked, and every emitted
operation carries the given id. -/
theorem objectId_passthrough (segs : List TextSegment) (id1 id2 : String) :
    (ToSlidesRequests segs id1).map stripOid = (ToSlidesRequests segs id2).map stripOid ∧
      (ToSlidesRequests segs id1).all (fun r => oidOf r == id1) = true := by
  have hb : ∀ oid : String,
      stripOid ∘ (fun pr : Nat × Nat => Request.updateTextStyle oid true pr.1 pr.2) =
        fun pr : Nat × Nat => Request.updateTextStyle "" true pr.1 pr.2 := by
    intro oid; funext pr; rfl
  have hc : ∀ oid : String,
      stripOid ∘ (fun tr : Nat × Nat × Int =>
          Request.createParagraphBullets oid tr.1 tr.2.1 (presetForLevel tr.2.2)) =
        fun tr : Nat × Nat × Int =>
          Request.createParagraphBullets "" tr.1 tr.2.1 (presetForLevel tr.2.2) := by
    intro oid; funext tr; rfl
  constructor
  · simp [ToSlidesRequests, List.map_map, hb, hc, stripOid]
  · rw [List.all_eq_true]
    intro r hr
    simp only [ToSlidesRequests, List.mem_cons, List.mem_append, List.mem_map] at hr
    rcases hr with h | ⟨pr, _, h⟩ | ⟨tr, _, h⟩ <;> subst h <;> simp [oidOf]

lemma glen_append (a b : List Char) : glen (a ++ b) = glen a + glen b := by
  simp [glen]

lemma compileStep_plainText (st : CompileState) (seg : TextSegment) :
    (compileStep st seg).plainText = st.plainText ++ seg.text := rfl

lemma compileStep_pos (st : CompileState) (seg : TextSegment) :
    (compileStep st seg).pos = st.pos + glen seg.text := rfl

lemma foldl_plainText (segs : List TextSegment) : ∀ st : CompileState,
    (List.foldl compileStep st segs).plainText = st.plainText ++ concatTexts segs := by
  induction segs with
  | nil => intro st; simp [concatTexts]
  | cons seg rest ih =>
    intro st
    simp [List.foldl_cons, ih, compileStep_plainText, concatTexts]

lemma foldl_pos (segs : List TextSegment) : ∀ st : CompileState,
    (List.foldl compileStep st segs).pos = st.pos + glen (concatTexts segs) := by
  induction segs with
  | nil => intro st; simp [concatTexts, glen]
  | cons seg rest ih =>
    intro st
    have : concatTexts (seg :: rest) = seg.text ++ concatTexts rest := by
      simp [concatTexts]
    rw [List.foldl_cons, ih, compileStep_pos, this, glen_append, Nat.add_assoc]

lemma finalize_plainText (st : CompileState) : (finalize st).plainText = st.plainText := by
  unfold finalize
  cases h : st.bulletRun with
  | none => rfl
  | some br => obtain ⟨s, lvl⟩ := br; rfl

lemma finalize_pos (st : CompileState) : (finalize st).pos = st.pos := by
  unfold finalize
  cases h : st.bulletRun with
  | none => rfl
  | some br => obtain ⟨s, lvl⟩ := br; rfl

lemma compile_plainText (segs : List TextSegment) :
    (compile segs).plainText = concatTexts segs := by
  rw [compile, finalize_plainText, foldl_plainText]
  simp [initState]

lemma compile_pos (segs : List TextSegment) :
    (compile segs).pos = glen (concatTexts segs) := by
  rw [compile, finalize_pos, foldl_pos]
  simp [initState]

lemma compileStep_boldRanges (st : CompileState) (seg : TextSegment) :
    (compileStep st seg).boldRanges =
      if seg.isBold then st.boldRanges ++ [(st.pos, st.pos + glen seg.text)]
      else st.boldRanges := rfl

lemma compileStep_bullet_ranges_of_bullet (st : CompileState) (seg : TextSegment)
    (hb : seg.isBullet = true) :
    (compileStep st seg).bulletRanges = st.bulletRanges := by
  cases hr : st.bulletRun with
  | none => simp [compileStep, hb, hr]
  | some br => simp [compileStep, hb, hr]

lemma compileStep_bullet_run_of_bullet_none (st : CompileState) (seg : TextSegment)
    (hb : seg.isBullet = true) (hr : st.bulletRun = none) :
    (compileStep st seg).bulletRun = some (st.pos, seg.level) := by
  simp [compileStep, hb, hr]

lemma compileStep_bullet_run_of_bullet_some (st : CompileState) (seg : TextSegment)
    (br : Nat × Int) (hb : seg.isBullet = true) (hr : st.bulletRun = some br) :
    (compileStep st seg).bulletRun = some br := by
  simp [compileStep, hb, hr]

lemma compileStep_of_nonbullet_none (st : CompileState) (seg : TextSegment)
    (hb : seg.isBullet = false) (hr : st.bulletRun = none) :
    (compileStep st seg).bulletRanges = st.bulletRanges ∧
      (compileStep st seg).bulletRun = none := by
  constructor <;> simp [compileStep, hb, hr]

lemma compileStep_of_nonbullet_some (st : CompileState) (seg : TextSegment)
    (s : Nat) (lvl : Int) (hb : seg.isBullet = false) (hr : st.bulletRun = some (s, lvl)) :
    (compileStep st seg).bulletRanges = st.bulletRanges ++ [(s, st.pos, lvl)] ∧
      (compileStep st seg).bulletRun = none := by
  constructor <;> simp [compileStep, hb, hr]

lemma foldl_bounded (segs : List TextSegment) : ∀ st : CompileState,
    (∀ pr ∈ st.boldRanges, pr.1 ≤ pr.2 ∧ pr.2 ≤ st.pos) →
    (∀ tr ∈ st.bulletRanges, tr.1 ≤ tr.2.1 ∧ tr.2.1 ≤ st.pos) →
    (∀ s lvl, st.bulletRun = some (s, lvl) → s ≤ st.pos) →
    (∀ pr ∈ (List.foldl compileStep st segs).boldRanges,
        pr.1 ≤ pr.2 ∧ pr.2 ≤ (List.foldl compileStep st segs).pos) ∧
      (∀ tr ∈ (List.foldl compileStep st segs).bulletRanges,
        tr.1 ≤ tr.2.1 ∧ tr.2.1 ≤ (List.foldl compileStep st segs).pos) ∧
      (∀ s lvl, (List.foldl compileStep st segs).bulletRun = some (s, lvl) →
        s ≤ (List.foldl compileStep st segs).pos) := by
  induction segs with
  | nil => intro st h1 h2 h3; exact ⟨h1, h2, h3⟩
  | cons seg rest ih =>
    intro st h1 h2 h3
    rw [List.foldl_cons]
    have hpos : st.pos ≤ (compileStep st seg).pos := by
      rw [compileStep_pos]; exact Nat.le_add_right _ _
    apply ih
    · intro pr hpr
      rw [compileStep_boldRanges] at hpr
      by_cases hb : seg.isBold = true
      · rw [if_pos hb, List.mem_append, List.mem_singleton] at hpr
        rcases hpr with hpr | hpr
        · exact ⟨(h1 pr hpr).1, Nat.le_trans (h1 pr hpr).2 hpos⟩
        · subst hpr
          exact ⟨Nat.le_add_right _ _, Nat.le_of_eq (compileStep_pos st seg).symm⟩
      · rw [if_neg hb] at hpr
        exact ⟨(h1 pr hpr).1, Nat.le_trans (h1 pr hpr).2 hpos⟩
    · intro tr htr
      by_cases hb : seg.isBullet = true
      · rw [compileStep_bullet_ranges_of_bullet st seg hb] at htr
        exact ⟨(h2 tr htr).1, Nat.le_trans (h2 tr htr).2 hpos⟩
      · rw [Bool.not_eq_true] at hb
        cases hr : st.bulletRun with
        | none =>
          rw [(compileStep_of_nonbullet_none st seg hb hr).1] at htr
          exact ⟨(h2 tr htr).1, Nat.le_trans (h2 tr htr).2 hpos⟩
        | some br =>
          obtain ⟨s, lvl⟩ := br
          rw [(compileStep_of_nonbullet_some st seg s lvl hb hr).1,
            List.mem_append, List.mem_singleton] at htr
          rcases htr with htr | htr
          · exact ⟨(h2 tr htr).1, Nat.le_trans (h2 tr htr).2 hpos⟩
          · subst htr
            exact ⟨h3 s lvl hr, hpos⟩
    · intro s lvl hrun
      by_cases hb : seg.isBullet = true
      · cases hr : st.bulletRun with
        | none =>
          rw [compileStep_bullet_run_of_bullet_none st seg hb hr] at hrun
          rw [Option.some.injEq, Prod.mk.injEq] at hrun
          rw [← hrun.1, compileStep_pos]
          exact Nat.le_add_right _ _
        | some br =>
          rw [compileStep_bullet_run_of_bullet_some st seg br hb hr] at hrun
          rw [hrun] at hr
          exact Nat.le_trans (h3 s lvl hr) hpos
      · rw [Bool.not_eq_true] at hb
        cases hr : st.bulletRun with
        | none =>
          rw [(compileStep_of_nonbullet_none st seg hb hr).2] at hrun
          cases hrun
        | some br =>
          obtain ⟨bs, blvl⟩ := br
          rw [(compileStep_of_nonbullet_some st seg bs blvl hb hr).2] at hrun
          cases hrun

lemma finalize_boldRanges (st : CompileState) : (finalize st).boldRanges = st.boldRanges := by
  cases h : st.bulletRun with
  | none => simp [finalize, h]
  | some br => obtain ⟨s, lvl⟩ := br; simp [finalize, h]

lemma compile_bounded (segs : List TextSegment) :
    (∀ pr ∈ (compile segs).boldRanges, pr.1 ≤ pr.2 ∧ pr.2 ≤ glen (concatTexts segs)) ∧
      ∀ tr ∈ (compile segs).bulletRanges, tr.1 ≤ tr.2.1 ∧ tr.2.1 ≤ glen (concatTexts segs) := by
  have hfold := foldl_bounded segs initState
    (by simp [initState]) (by simp [initState]) (by simp [initState])
  have hpos : (List.foldl compileStep initState segs).pos = glen (concatTexts segs) := by
    rw [foldl_pos]; simp [initState]
  rw [hpos] at hfold
  constructor
  · intro pr hpr
    rw [compile, finalize_boldRanges] at hpr
    exact hfold.1 pr hpr
  · intro tr htr
    rw [compile] at htr
    cases hr : (List.foldl compileStep initState segs).bulletRun with
    | none =>
      rw [finalize, hr] at htr
      exact hfold.2.1 tr htr
    | some br =>
      obtain ⟨s, lvl⟩ := br
      rw [finalize, hr] at htr
      simp only [List.mem_append, List.mem_singleton] at htr
      rcases htr with htr | htr
      · exact hfold.2.1 tr htr
      · subst htr
        constructor
        · show s ≤ (List.foldl compileStep initState segs).pos
          rw [hpos]
          exact hfold.2.2 s lvl hr
        · show (List.foldl compileStep initState segs).pos ≤ glen (concatTexts segs)
          rw [hpos]

/-- Claim C10: for every segment sequence (arbitrary, not only parser
output) and every object id, the first emitted operation is the single
`InsertText` whose text is the in-order concatenation of the segment
texts, and every emitted range `[start, end)` satisfies
`start ≤ end ≤ len(text)` — lengths and offsets both measured the way the
code measures them (Go `len`, i.e. UTF-8 bytes), so the ranges always lie
within the inserted text. -/
theorem insertText_concat_and_ranges_bounded (segs : List TextSegment) (oid : String) :
    (ToSlidesRequests segs oid).head? = some (.insertText oid 0 (concatTexts segs)) ∧
      (ToSlidesRequests segs oid).all (reqBounded (glen (concatTexts segs))) = true := by
  constructor
  · simp [ToSlidesRequests, compile_plainText]
  · rw [List.all_eq_true]
    intro r hr
    simp only [ToSlidesRequests, List.mem_cons, List.mem_append, List.mem_map] at hr
    rcases hr with h | ⟨pr, hpr, h⟩ | ⟨tr, htr, h⟩
    · subst h; rfl
    · subst h
      have hb := (compile_bounded segs).1 pr hpr
      simp [reqBounded, hb.1, hb.2]
    · subst h
      have hb := (compile_bounded segs).2 tr htr
      simp [reqBounded, hb.1, hb.2]

lemma foldl_bullet_spec (segs : List TextSegment) : ∀ st : CompileState,
    (st.bulletRun = none →
      (finalize (List.foldl compileStep st segs)).bulletRanges =
        st.bulletRanges ++ bulletRunsSpec segs st.pos) ∧
    (∀ s lvl, st.bulletRun = some (s, lvl) →
      (finalize (List.foldl compileStep st segs)).bulletRanges =
        st.bulletRanges ++
          (s, st.pos + glen (concatTexts (segs.takeWhile fun x => x.isBullet)), lvl) ::
            bulletRunsSpec (segs.dropWhile fun x => x.isBullet)
              (st.pos + glen (concatTexts (segs.takeWhile fun x => x.isBullet)))) := by
  induction segs with
  | nil =>
    intro st
    constructor
    · intro h
      simp [finalize, h, bulletRunsSpec]
    · intro s lvl h
      simp [finalize, h, bulletRunsSpec, concatTexts, glen]
  | cons seg rest ih =>
    intro st
    have hcat : ∀ l : List TextSegment, ∀ x : TextSegment,
        glen (concatTexts (x :: l)) = glen x.text + glen (concatTexts l) := by
      intro l x
      simp [concatTexts, glen_append]
    constructor
    · intro h
      rw [List.foldl_cons]
      by_cases hb : seg.isBullet = true
      · have h2 := (ih (compileStep st seg)).2 st.pos seg.level
          (compileStep_bullet_run_of_bullet_none st seg hb h)
        rw [h2, compileStep_bullet_ranges_of_bullet st seg hb, compileStep_pos]
        simp only [bulletRunsSpec]
        rw [if_pos hb]
      · rw [Bool.not_eq_true] at hb
        have h2 := (ih (compileStep st seg)).1 (compileStep_of_nonbullet_none st seg hb h).2
        rw [h2, (compileStep_of_nonbullet_none st seg hb h).1, compileStep_pos]
        simp only [bulletRunsSpec]
        rw [if_neg (by simp [hb])]
    · intro s lvl h
      have hb2 : ∀ hbx : seg.isBullet = true, (fun x : TextSegment => x.isBullet) seg = true :=
        fun hbx => hbx
      rw [List.foldl_cons]
      by_cases hb : seg.isBullet = true
      · have h2 := (ih (compileStep st seg)).2 s lvl
          (compileStep_bullet_run_of_bullet_some st seg (s, lvl) hb h)
        rw [h2, compileStep_bullet_ranges_of_bullet st seg hb, compileStep_pos]
        rw [List.takeWhile_cons_of_pos (hb2 hb), List.dropWhile_cons_of_pos (hb2 hb), hcat]
        simp only [Nat.add_assoc]
      · rw [Bool.not_eq_true] at hb
        have hb3 : ¬((fun x : TextSegment => x.isBullet) seg = true) := by simp [hb]
        have h2 := (ih (compileStep st seg)).1 (compileStep_of_nonbullet_some st seg s lvl hb h).2
        rw [h2, (compileStep_of_nonbullet_some st seg s lvl hb h).1, compileStep_pos]
        rw [List.takeWhile_cons_of_neg hb3, List.dropWhile_cons_of_neg hb3]
        simp only [bulletRunsSpec]
        rw [if_neg (by simp [hb])]
        simp only [concatTexts, List.map_nil, List.flatten_nil, glen, List.map,
          List.sum_nil, Nat.add_zero, List.takeWhile_nil]
        rw [List.append_assoc]
        rfl

lemma hasPair_nil : hasPair [] = false := rfl

lemma hasPair_single (a : Char) : hasPair [a] = false := rfl

lemma hasPair_cons_cons (a b : Char) (t : List Char) :
    hasPair (a :: b :: t) = (decide (a = '*' ∧ b = '*') || hasPair (b :: t)) := rfl

lemma parseBoldGo_succ_none (fuel : Nat) (t : List Char) (isB : Bool) (lvl : Int)
    (h1 : splitFirstPair t = none) :
    parseBoldGo (fuel + 1) t isB lvl =
      if t = [] then [] else [⟨t, false, isB, lvl⟩] := by
  simp only [parseBoldGo, h1]

lemma parseBoldGo_succ_noclose (fuel : Nat) (t : List Char) (isB : Bool) (lvl : Int)
    (pre rest : List Char) (h1 : splitFirstPair t = some (pre, rest))
    (h2 : splitFirstPair rest = none) :
    parseBoldGo (fuel + 1) t isB lvl =
      if t = [] then [] else [⟨t, false, isB, lvl⟩] := by
  simp only [parseBoldGo, h1, h2]

lemma parseBoldGo_succ_close (fuel : Nat) (t : List Char) (isB : Bool) (lvl : Int)
    (pre rest content rest2 : List Char) (h1 : splitFirstPair t = some (pre, rest))
    (h2 : splitFirstPair rest = some (content, rest2)) :
    parseBoldGo (fuel + 1) t isB lvl =
      (if pre = [] then [] else [⟨pre, false, isB, lvl⟩]) ++
        ⟨content, true, isB, lvl⟩ :: parseBoldGo fuel rest2 isB lvl := by
  simp only [parseBoldGo, h1, h2]

/-- The text before the first `*`-pair contains no `*`-pair, and the split
is a decomposition of the input. -/
lemma splitFirstPair_some (t : List Char) : ∀ pre rest,
    splitFirstPair t = some (pre, rest) →
      t = pre ++ '*' :: '*' :: rest ∧ hasPair pre = false := by
  induction t with
  | nil => intro pre rest h; simp [splitFirstPair] at h
  | cons a t ih =>
    cases t with
    | nil => intro pre rest h; simp [splitFirstPair] at h
    | cons b t2 =>
      intro pre rest h
      rw [splitFirstPair] at h
      by_cases hab : a = '*' ∧ b = '*'
      · rw [if_pos hab] at h
        rw [Option.some.injEq, Prod.mk.injEq] at h
        obtain ⟨h1, h2⟩ := h
        subst h1; subst h2
        exact ⟨by rw [hab.1, hab.2]; rfl, hasPair_nil⟩
      · rw [if_neg hab] at h
        cases hsp : splitFirstPair (b :: t2) with
        | none => rw [hsp] at h; simp at h
        | some pr =>
          obtain ⟨p, r⟩ := pr
          rw [hsp] at h
          simp only [Option.map_some'] at h
          rw [Option.some.injEq, Prod.mk.injEq] at h
          obtain ⟨h1, h2⟩ := h
          subst h2
          have hih := ih p r hsp
          rw [← h1]
          constructor
          · rw [List.cons_append, hih.1]
          · cases hp : p with
            | nil => exact hasPair_single a
            | cons q p2 =>
              rw [hasPair_cons_cons]
              have hbq : b = q := by
                have := hih.1
                rw [hp, List.cons_append] at this
                exact (List.cons.injEq _ _ _ _ ▸ this).1
              rw [← hp]
              have hqpair : hasPair p = false := hih.2
              rw [hp] at hqpair ⊢
              rw [hqpair]
              have : ¬(a = '*' ∧ q = '*') := by
                rw [← hbq]; exact hab
              simp [this]

/-- Every bold segment the bold-span scanner produces is a captured group,
which contains no delimiter pair. -/
lemma parseBoldGo_bold_noPair (fuel : Nat) : ∀ t isB lvl,
    ∀ seg ∈ parseBoldGo fuel t isB lvl, seg.isBold = true → hasPair seg.text = false := by
  induction fuel with
  | zero =>
    intro t isB lvl seg hseg hbold
    rw [parseBoldGo] at hseg
    by_cases ht : t = []
    · rw [if_pos ht] at hseg; cases hseg
    · rw [if_neg ht, List.mem_singleton] at hseg
      subst hseg; cases hbold
  | succ fuel ih =>
    intro t isB lvl seg hseg hbold
    cases h1 : splitFirstPair t with
    | none =>
      rw [parseBoldGo_succ_none fuel t isB lvl h1] at hseg
      by_cases ht : t = []
      · rw [if_pos ht] at hseg; cases hseg
      · rw [if_neg ht, List.mem_singleton] at hseg
        subst hseg; cases hbold
    | some pr1 =>
      obtain ⟨pre, rest⟩ := pr1
      cases h2 : splitFirstPair rest with
      | none =>
        rw [parseBoldGo_succ_noclose fuel t isB lvl pre rest h1 h2] at hseg
        by_cases ht : t = []
        · rw [if_pos ht] at hseg; cases hseg
        · rw [if_neg ht, List.mem_singleton] at hseg
          subst hseg; cases hbold
      | some pr2 =>
        obtain ⟨content, rest2⟩ := pr2
        rw [parseBoldGo_succ_close fuel t isB lvl pre rest content rest2 h1 h2] at hseg
        rw [List.mem_append, List.mem_cons] at hseg
        rcases hseg with hseg | hseg | hseg
        · by_cases hpre : pre = []
          · rw [if_pos hpre] at hseg; cases hseg
          · rw [if_neg hpre, List.mem_singleton] at hseg
            subst hseg; cases hbold
        · subst hseg
          exact (splitFirstPair_some rest content rest2 h2).2
        · exact ih rest2 isB lvl seg hseg hbold

/-- All segments the bold-span scanner produces, except possibly the last
one, contain no delimiter pair: a dangling `**` can only survive in the
final remainder segment. -/
lemma parseBoldGo_dropLast_noPair (fuel : Nat) : ∀ t isB lvl,
    ∀ seg ∈ (parseBoldGo fuel t isB lvl).dropLast, hasPair seg.text = false := by
  induction fuel with
  | zero =>
    intro t isB lvl seg hseg
    rw [parseBoldGo] at hseg
    by_cases ht : t = []
    · rw [if_pos ht] at hseg; cases hseg
    · rw [if_neg ht] at hseg; cases hseg
  | succ fuel ih =>
    intro t isB lvl seg hseg
    cases h1 : splitFirstPair t with
    | none =>
      rw [parseBoldGo_succ_none fuel t isB lvl h1] at hseg
      by_cases ht : t = []
      · rw [if_pos ht] at hseg; cases hseg
      · rw [if_neg ht] at hseg; cases hseg
    | some pr1 =>
      obtain ⟨pre, rest⟩ := pr1
      cases h2 : splitFirstPair rest with
      | none =>
        rw [parseBoldGo_succ_noclose fuel t isB lvl pre rest h1 h2] at hseg
        by_cases ht : t = []
        · rw [if_pos ht] at hseg; cases hseg
        · rw [if_neg ht] at hseg; cases hseg
      | some pr2 =>
        obtain ⟨content, rest2⟩ := pr2
        rw [parseBoldGo_succ_close fuel t isB lvl pre rest content rest2 h1 h2] at hseg
        have hprenp : ∀ x ∈ (if pre = [] then ([] : List TextSegment)
            else [⟨pre, false, isB, lvl⟩]), hasPair x.text = false := by
          intro x hx
          by_cases hpre : pre = []
          · rw [if_pos hpre] at hx; cases hx
          · rw [if_neg hpre, List.mem_singleton] at hx
            subst hx
            exact (splitFirstPair_some t pre rest h1).2
        cases hrec : parseBoldGo fuel rest2 isB lvl with
        | nil =>
          rw [hrec] at hseg
          have : (⟨content, true, isB, lvl⟩ : TextSegment) :: ([] : List TextSegment) = [⟨content, true, isB, lvl⟩] := rfl
          rw [this, List.dropLast_concat] at hseg
          exact hprenp seg hseg
        | cons rx rrest =>
          rw [hrec] at hseg
          rw [List.dropLast_append_cons, List.dropLast_cons₂] at hseg
          rw [List.mem_append, List.mem_cons] at hseg
          rcases hseg with hseg | hseg | hseg
          · exact hprenp seg hseg
          · subst hseg
            exact (splitFirstPair_some rest content rest2 h2).2
          · rw [← hrec] at hseg
            exact ih rest2 isB lvl seg hseg

/-- Bold segments of `processLine` contain no delimiter pair. -/
lemma processLine_bold_noPair (line : List Char) :
    ∀ seg ∈ processLine line, seg.isBold = true → hasPair seg.text = false := by
  intro seg hseg hbold
  rw [processLine] at hseg
  by_cases hb1 : bulletMatch line = true
  · rw [if_pos hb1] at hseg
    exact parseBoldGo_bold_noPair _ _ _ _ seg hseg hbold
  · rw [if_neg hb1] at hseg
    by_cases hb2 : subBulletMatch line = true
    · rw [if_pos hb2] at hseg
      exact parseBoldGo_bold_noPair _ _ _ _ seg hseg hbold
    · rw [if_neg hb2] at hseg
      exact parseBoldGo_bold_noPair _ _ _ _ seg hseg hbold

/-- Claim C2 (amended): every segment with `isBold = true` produced by
`ParseMarkup` has text free of the literal bold-delimiter pair, and among
the segments produced from one line's content (one `parseBoldInText`
call) every segment except possibly the last is free of the pair — only
the final remainder segment can retain a dangling unmatched `**` (and, as
the counterexample shows, a segment can begin with a bullet marker when a
bullet line's content itself begins with another marker). -/
theorem bold_and_interior_segments_markup_free :
    (∀ s : List Char, (ParseMarkup s).all
        (fun seg => !seg.isBold || !hasPair seg.text) = true) ∧
      ∀ t : List Char, ∀ isB : Bool, ∀ lvl : Int,
        ((parseBoldInText t isB lvl).dropLast).all (fun seg => !hasPair seg.text) = true := by
  constructor
  · intro s
    rw [List.all_eq_true]
    intro seg hseg
    rw [ParseMarkup, List.mem_flatten] at hseg
    obtain ⟨grp, hgrp, hseg⟩ := hseg
    rw [List.mem_map] at hgrp
    obtain ⟨line, _, hgrp⟩ := hgrp
    subst hgrp
    rw [List.mem_append] at hseg
    have : seg.isBold = true → hasPair seg.text = false := by
      intro hbold
      rcases hseg with hseg | hseg
      · exact processLine_bold_noPair line seg hseg hbold
      · by_cases hl : line = (splitNl s).getLastD []
        · rw [if_pos hl] at hseg; cases hseg
        · rw [if_neg hl, List.mem_singleton] at hseg
          subst hseg; cases hbold
    by_cases hbold : seg.isBold = true
    · simp [this hbold]
    · simp [Bool.not_eq_true] at hbold
      simp [hbold]
  · intro t isB lvl
    rw [List.all_eq_true]
    intro seg hseg
    have := parseBoldGo_dropLast_noPair t.length t isB lvl seg hseg
    simp [this]

/-- Claim C7: the compiler's bullet ranges are exactly the ranges of the
maximal contiguous runs of segments with `isBullet = true`: each range
starts at the run's start offset, ends at the offset where the first
subsequent non-bullet segment begins (the final cursor position when the
sequence ends inside the run), and carries the level of the run's *first*
segment even when the run mixes levels — as stated by `bulletRunsSpec`,
which is written from the spec's words. -/
theorem bulletRanges_eq_runs_spec (segs : List TextSegment) :
    (compile segs).bulletRanges = bulletRunsSpec segs 0 := by
  have h := (foldl_bullet_spec segs initState).1 rfl
  rw [compile]
  rw [h]
  simp [initState]

lemma hasPair_tail (t : List Char) (h : hasPair t = false) : hasPair t.tail = false := by
  cases t with
  | nil => exact h
  | cons a t =>
    cases t with
    | nil => rfl
    | cons b t2 =>
      rw [hasPair_cons_cons, Bool.or_eq_false_iff] at h
      exact h.2

lemma splitFirstPair_none_iff (t : List Char) :
    splitFirstPair t = none ↔ hasPair t = false := by
  induction t with
  | nil => simp [splitFirstPair, hasPair_nil]
  | cons a t ih =>
    cases t with
    | nil => simp [splitFirstPair, hasPair_single]
    | cons b t2 =>
      rw [splitFirstPair, hasPair_cons_cons]
      by_cases hab : a = '*' ∧ b = '*'
      · rw [if_pos hab]
        simp [hab]
      · rw [if_neg hab]
        rw [Bool.or_eq_false_iff]
        cases hsp : splitFirstPair (b :: t2) with
        | none =>
          simp only [Option.map_none']
          rw [hsp] at ih
          simp [hab, ih.1 rfl]
        | some pr =>
          simp only [Option.map_some']
          rw [hsp] at ih
          constructor
          · intro h; cases h
          · intro h
            have := ih.2 h.2
            cases this

lemma splitFirstPair_some_endsStar (t : List Char) : ∀ pre rest,
    splitFirstPair t = some (pre, rest) → endsStar pre = false := by
  induction t with
  | nil => intro pre rest h; simp [splitFirstPair] at h
  | cons a t ih =>
    cases t with
    | nil => intro pre rest h; simp [splitFirstPair] at h
    | cons b t2 =>
      intro pre rest h
      rw [splitFirstPair] at h
      by_cases hab : a = '*' ∧ b = '*'
      · rw [if_pos hab, Option.some.injEq, Prod.mk.injEq] at h
        rw [← h.1]
        rfl
      · rw [if_neg hab] at h
        cases hsp : splitFirstPair (b :: t2) with
        | none => rw [hsp] at h; simp at h
        | some pr =>
          obtain ⟨p, r⟩ := pr
          rw [hsp] at h
          simp only [Option.map_some'] at h
          rw [Option.some.injEq, Prod.mk.injEq] at h
          obtain ⟨h1, h2⟩ := h
          rw [← h1]
          cases hp : p with
          | nil =>
            have hb : b = '*' := by
              have := (splitFirstPair_some (b :: t2) p r hsp).1
              rw [hp, List.nil_append] at this
              exact (List.cons.injEq _ _ _ _ ▸ this).1
            have ha : ¬ a = '*' := fun hc => hab ⟨hc, hb⟩
            simp [endsStar, ha]
          | cons q p2 =>
            have : endsStar (a :: q :: p2) = endsStar (q :: p2) := rfl
            rw [this, ← hp]
            exact hp ▸ (hp ▸ ih p r hsp)

lemma splitFirstPairNoNl_eq_of_no_nl (t : List Char) (h : '\n' ∉ t) :
    splitFirstPairNoNl t = splitFirstPair t := by
  induction t with
  | nil => rfl
  | cons a t ih =>
    cases t with
    | nil => rfl
    | cons b t2 =>
      have ha : ¬ a = '\n' := fun hc => h (hc ▸ List.mem_cons_self a _)
      have ht : '\n' ∉ b :: t2 := fun hc => h (List.mem_cons_of_mem a hc)
      rw [splitFirstPairNoNl, splitFirstPair, if_neg ha, ih ht]

lemma splitFirstPairNoNl_some (x : List Char) : ∀ content rest2,
    splitFirstPairNoNl x = some (content, rest2) →
      x = content ++ '*' :: '*' :: rest2 ∧ '\n' ∉ content := by
  induction x with
  | nil => intro c r h; simp [splitFirstPairNoNl] at h
  | cons a x ih =>
    cases x with
    | nil => intro c r h; simp [splitFirstPairNoNl] at h
    | cons b x2 =>
      intro c r h
      rw [splitFirstPairNoNl] at h
      by_cases ha : a = '\n'
      · rw [if_pos ha] at h; cases h
      · rw [if_neg ha] at h
        by_cases hab : a = '*' ∧ b = '*'
        · rw [if_pos hab, Option.some.injEq, Prod.mk.injEq] at h
          obtain ⟨h1, h2⟩ := h
          subst h2
          rw [← h1]
          refine ⟨by rw [hab.1, hab.2]; rfl, ?_⟩
          intro hc; cases hc
        · rw [if_neg hab] at h
          cases hsp : splitFirstPairNoNl (b :: x2) with
          | none => rw [hsp] at h; simp at h
          | some pr =>
            obtain ⟨p, q⟩ := pr
            rw [hsp] at h
            simp only [Option.map_some'] at h
            rw [Option.some.injEq, Prod.mk.injEq] at h
            obtain ⟨h1, h2⟩ := h
            subst h2
            have hih := ih p q hsp
            rw [← h1]
            constructor
            · rw [List.cons_append, hih.1]
            · intro hc
              rw [List.mem_cons] at hc
              rcases hc with hc | hc
              · exact ha hc.symm
              · exact hih.2 hc

lemma splitAtNl_none_iff (t : List Char) : splitAtNl t = none ↔ '\n' ∉ t := by
  induction t with
  | nil => simp [splitAtNl]
  | cons a t ih =>
    rw [splitAtNl]
    by_cases ha : a = '\n'
    · rw [if_pos ha]
      simp [ha]
    · rw [if_neg ha]
      cases hsp : splitAtNl t with
      | none =>
        simp only [Option.map_none']
        rw [hsp] at ih
        constructor
        · intro _ hc
          rw [List.mem_cons] at hc
          rcases hc with hc | hc
          · exact ha hc.symm
          · exact (ih.1 rfl) hc
        · intro _; trivial
      | some pr =>
        simp only [Option.map_some']
        rw [hsp] at ih
        constructor
        · intro h; cases h
        · intro h
          have : '\n' ∉ t := fun hc => h (List.mem_cons_of_mem a hc)
          have := ih.2 this
          cases this

lemma splitAtNl_some (t : List Char) : ∀ p r,
    splitAtNl t = some (p, r) → t = p ++ '\n' :: r ∧ '\n' ∉ p := by
  induction t with
  | nil => intro p r h; simp [splitAtNl] at h
  | cons a t ih =>
    intro p r h
    rw [splitAtNl] at h
    by_cases ha : a = '\n'
    · rw [if_pos ha, Option.some.injEq, Prod.mk.injEq] at h
      obtain ⟨h1, h2⟩ := h
      subst h2
      rw [← h1]
      exact ⟨by rw [ha]; rfl, List.not_mem_nil _⟩
    · rw [if_neg ha] at h
      cases hsp : splitAtNl t with
      | none => rw [hsp] at h; simp at h
      | some pr =>
        obtain ⟨p2, r2⟩ := pr
        rw [hsp] at h
        simp only [Option.map_some'] at h
        rw [Option.some.injEq, Prod.mk.injEq] at h
        obtain ⟨h1, h2⟩ := h
        subst h2
        have hih := ih p2 r2 hsp
        rw [← h1]
        constructor
        · rw [List.cons_append, hih.1]
        · intro hc
          rw [List.mem_cons] at hc
          rcases hc with hc | hc
          · exact ha hc.symm
          · exact hih.2 hc

lemma splitAtNl_append (p r : List Char) (h : '\n' ∉ p) :
    splitAtNl (p ++ '\n' :: r) = some (p, r) := by
  induction p with
  | nil => simp [splitAtNl]
  | cons a p ih =>
    have ha : ¬ a = '\n' := fun hc => h (hc ▸ List.mem_cons_self a _)
    have hp : '\n' ∉ p := fun hc => h (List.mem_cons_of_mem a hc)
    rw [List.cons_append, splitAtNl, if_neg ha, ih hp]
    rfl

lemma splitFirstPair_append_of_noPair (u : List Char) : ∀ v : List Char,
    hasPair u = false → endsStar u = false →
      splitFirstPair (u ++ v) = (splitFirstPair v).map (fun pr => (u ++ pr.1, pr.2)) := by
  induction u with
  | nil =>
    intro v _ _
    cases h : splitFirstPair v <;> simp [h]
  | cons a u ih =>
    intro v h1 h2
    cases u with
    | nil =>
      have ha : ¬ a = '*' := by
        simpa [endsStar] using h2
      cases v with
      | nil => rfl
      | cons c v2 =>
        rw [List.cons_append, List.nil_append, splitFirstPair,
          if_neg (fun hc => ha hc.1)]
        cases hs : splitFirstPair (c :: v2) <;> rfl
    | cons b u2 =>
      have hab : ¬(a = '*' ∧ b = '*') := by
        intro hc
        rw [hasPair_cons_cons, hc.1, hc.2] at h1
        simp at h1
      have h1' : hasPair (b :: u2) = false := by
        rw [hasPair_cons_cons, Bool.or_eq_false_iff] at h1
        exact h1.2
      have h2' : endsStar (b :: u2) = false := h2
      simp only [List.cons_append]
      rw [splitFirstPair, if_neg hab]
      rw [← List.cons_append, ih v h1' h2']
      cases hs : splitFirstPair v <;> rfl

lemma splitFirstPair_decomp (u x : List Char) (h1 : hasPair u = false)
    (h2 : endsStar u = false) :
    splitFirstPair (u ++ '*' :: '*' :: x) = some (u, x) := by
  rw [splitFirstPair_append_of_noPair u ('*' :: '*' :: x) h1 h2]
  rw [splitFirstPair, if_pos ⟨rfl, rfl⟩]
  simp

lemma splitFirstPair_append_nl (l : List Char) : ∀ v : List Char, hasPair l = false →
    splitFirstPair (l ++ '\n' :: v) =
      (splitFirstPair v).map (fun pr => (l ++ '\n' :: pr.1, pr.2)) := by
  induction l with
  | nil =>
    intro v _
    cases v with
    | nil => rfl
    | cons c v2 =>
      rw [List.nil_append, splitFirstPair, if_neg (fun hc => by cases hc.1)]
      cases hs : splitFirstPair (c :: v2) <;> rfl
  | cons a l ih =>
    intro v h
    cases l with
    | nil =>
      rw [List.cons_append, List.nil_append, splitFirstPair,
        if_neg (fun hc => by cases hc.2)]
      rw [show ('\n' :: v) = [] ++ '\n' :: v from rfl, ih v rfl]
      cases hs : splitFirstPair v <;> rfl
    | cons b l2 =>
      have hab : ¬(a = '*' ∧ b = '*') := by
        intro hc
        rw [hasPair_cons_cons, hc.1, hc.2] at h
        simp at h
      have h' : hasPair (b :: l2) = false := by
        rw [hasPair_cons_cons, Bool.or_eq_false_iff] at h
        exact h.2
      simp only [List.cons_append]
      rw [splitFirstPair, if_neg hab]
      rw [← List.cons_append, ih v h']
      cases hs : splitFirstPair v <;> rfl

lemma splitFirstPairNoNl_nl_head (v : List Char) :
    splitFirstPairNoNl ('\n' :: v) = none := by
  cases v with
  | nil => rfl
  | cons c v2 => rw [splitFirstPairNoNl, if_pos rfl]

lemma splitFirstPairNoNl_append_nl (u : List Char) : ∀ v : List Char, '\n' ∉ u →
    splitFirstPairNoNl (u ++ '\n' :: v) =
      (splitFirstPair u).map (fun pr => (pr.1, pr.2 ++ '\n' :: v)) := by
  induction u with
  | nil =>
    intro v _
    rw [List.nil_append, splitFirstPairNoNl_nl_head]
    rfl
  | cons a u ih =>
    intro v h
    have ha : ¬ a = '\n' := fun hc => h (hc ▸ List.mem_cons_self a _)
    cases u with
    | nil =>
      rw [List.cons_append, List.nil_append, splitFirstPairNoNl, if_neg ha,
        if_neg (fun hc => by cases hc.2), splitFirstPairNoNl_nl_head]
      rfl
    | cons b u2 =>
      have hu : '\n' ∉ b :: u2 := fun hc => h (List.mem_cons_of_mem a hc)
      simp only [List.cons_append]
      rw [splitFirstPairNoNl, if_neg ha, splitFirstPair]
      by_cases hab : a = '*' ∧ b = '*'
      · rw [if_pos hab, if_pos hab]
        rfl
      · rw [if_neg hab, if_neg hab]
        rw [← List.cons_append, ih v hu]
        cases hs : splitFirstPair (b :: u2) <;> rfl

lemma replaceBoldGo_succ_none (fuel : Nat) (t : List Char)
    (h1 : splitFirstPair t = none) : replaceBoldGo (fuel + 1) t = t := by
  simp only [replaceBoldGo, h1]

lemma replaceBoldGo_succ_close (fuel : Nat) (t pre rest content rest2 : List Char)
    (h1 : splitFirstPair t = some (pre, rest))
    (h2 : splitFirstPairNoNl rest = some (content, rest2)) :
    replaceBoldGo (fuel + 1) t = pre ++ content ++ replaceBoldGo fuel rest2 := by
  simp only [replaceBoldGo, h1, h2]

lemma replaceBoldGo_succ_nl (fuel : Nat) (t pre rest pre2 rest2 : List Char)
    (h1 : splitFirstPair t = some (pre, rest))
    (h2 : splitFirstPairNoNl rest = none)
    (h3 : splitAtNl rest = some (pre2, rest2)) :
    replaceBoldGo (fuel + 1) t =
      pre ++ '*' :: '*' :: pre2 ++ '\n' :: replaceBoldGo fuel rest2 := by
  simp only [replaceBoldGo, h1, h2, h3]

lemma replaceBoldGo_succ_stuck (fuel : Nat) (t pre rest : List Char)
    (h1 : splitFirstPair t = some (pre, rest))
    (h2 : splitFirstPairNoNl rest = none)
    (h3 : splitAtNl rest = none) : replaceBoldGo (fuel + 1) t = t := by
  simp only [replaceBoldGo, h1, h2, h3]

lemma replaceBoldGo_nil (fuel : Nat) : replaceBoldGo fuel [] = [] := by
  cases fuel with
  | zero => rfl
  | succ f => exact replaceBoldGo_succ_none f [] rfl

lemma replaceBoldGo_fuel (f : Nat) : ∀ g : Nat, ∀ t : List Char,
    t.length ≤ f → t.length ≤ g → replaceBoldGo f t = replaceBoldGo g t := by
  induction f with
  | zero =>
    intro g t hf _
    have ht : t = [] := List.eq_nil_of_length_eq_zero (Nat.le_zero.mp hf)
    subst ht
    rw [replaceBoldGo_nil, replaceBoldGo_nil]
  | succ f ih =>
    intro g t hf hg
    cases g with
    | zero =>
      have ht : t = [] := List.eq_nil_of_length_eq_zero (Nat.le_zero.mp hg)
      subst ht
      rw [replaceBoldGo_nil, replaceBoldGo_nil]
    | succ g =>
      cases h1 : splitFirstPair t with
      | none => rw [replaceBoldGo_succ_none f t h1, replaceBoldGo_succ_none g t h1]
      | some pr =>
        obtain ⟨pre, rest⟩ := pr
        have hlen : t.length = pre.length + 2 + rest.length := by
          rw [(splitFirstPair_some t pre rest h1).1]
          simp only [List.length_append, List.length_cons]
          omega
        cases h2 : splitFirstPairNoNl rest with
        | some pr2 =>
          obtain ⟨content, rest2⟩ := pr2
          have hlen2 : rest.length = content.length + 2 + rest2.length := by
            rw [(splitFirstPairNoNl_some rest content rest2 h2).1]
            simp only [List.length_append, List.length_cons]
            omega
          rw [replaceBoldGo_succ_close f t pre rest content rest2 h1 h2,
            replaceBoldGo_succ_close g t pre rest content rest2 h1 h2,
            ih g rest2 (by omega) (by omega)]
        | none =>
          cases h3 : splitAtNl rest with
          | some pr3 =>
            obtain ⟨pre2, rest2⟩ := pr3
            have hlen3 : rest.length = pre2.length + 1 + rest2.length := by
              rw [(splitAtNl_some rest pre2 rest2 h3).1]
              simp only [List.length_append, List.length_cons]
              omega
            rw [replaceBoldGo_succ_nl f t pre rest pre2 rest2 h1 h2 h3,
              replaceBoldGo_succ_nl g t pre rest pre2 rest2 h1 h2 h3,
              ih g rest2 (by omega) (by omega)]
          | none =>
            rw [replaceBoldGo_succ_stuck f t pre rest h1 h2 h3,
              replaceBoldGo_succ_stuck g t pre rest h1 h2 h3]

lemma replaceBoldGo_subset (fuel : Nat) : ∀ t : List Char, ∀ x : Char,
    x ∈ replaceBoldGo fuel t → x ∈ t := by
  induction fuel with
  | zero => intro t x hx; exact hx
  | succ fuel ih =>
    intro t x hx
    cases h1 : splitFirstPair t with
    | none => rw [replaceBoldGo_succ_none fuel t h1] at hx; exact hx
    | some pr =>
      obtain ⟨pre, rest⟩ := pr
      have hdec := (splitFirstPair_some t pre rest h1).1
      cases h2 : splitFirstPairNoNl rest with
      | some pr2 =>
        obtain ⟨content, rest2⟩ := pr2
        have hdec2 := (splitFirstPairNoNl_some rest content rest2 h2).1
        rw [replaceBoldGo_succ_close fuel t pre rest content rest2 h1 h2] at hx
        have hrec := ih rest2 x
        rw [hdec, hdec2]
        simp only [List.mem_append, List.mem_cons] at hx ⊢
        tauto
      | none =>
        cases h3 : splitAtNl rest with
        | some pr3 =>
          obtain ⟨pre2, rest2⟩ := pr3
          have hdec3 := (splitAtNl_some rest pre2 rest2 h3).1
          rw [replaceBoldGo_succ_nl fuel t pre rest pre2 rest2 h1 h2 h3] at hx
          have hrec := ih rest2 x
          rw [hdec, hdec3]
          simp only [List.mem_append, List.mem_cons] at hx ⊢
          tauto
        | none =>
          rw [replaceBoldGo_succ_stuck fuel t pre rest h1 h2 h3] at hx
          exact hx

lemma replaceBoldAll_no_nl (t : List Char) (h : '\n' ∉ t) :
    '\n' ∉ replaceBoldAll t :=
  fun hc => h (replaceBoldGo_subset t.length t '\n' hc)

lemma replaceBoldGo_append_nl (fuel : Nat) : ∀ l r : List Char, '\n' ∉ l →
    l.length + r.length + 1 ≤ fuel →
    replaceBoldGo fuel (l ++ '\n' :: r) =
      replaceBoldGo fuel l ++ '\n' :: replaceBoldGo fuel r := by
  induction fuel with
  | zero => intro l r _ hlen; omega
  | succ fuel ih =>
    intro l r hnl hlen
    have hlenl : l.length + r.length + 1 ≤ fuel + 1 := hlen
    cases h1 : splitFirstPair l with
    | none =>
      have hp : hasPair l = false := (splitFirstPair_none_iff l).1 h1
      have hconc := splitFirstPair_append_nl l r hp
      rw [replaceBoldGo_succ_none fuel l h1]
      cases h2 : splitFirstPair r with
      | none =>
        have hn : splitFirstPair (l ++ '\n' :: r) = none := by rw [hconc, h2]; rfl
        rw [replaceBoldGo_succ_none fuel _ hn, replaceBoldGo_succ_none fuel r h2]
      | some pr =>
        obtain ⟨p, q⟩ := pr
        have hsp : splitFirstPair (l ++ '\n' :: r) = some (l ++ '\n' :: p, q) := by
          rw [hconc, h2]; rfl
        cases h2b : splitFirstPairNoNl q with
        | some pr2 =>
          obtain ⟨c, q2⟩ := pr2
          rw [replaceBoldGo_succ_close fuel _ _ _ _ _ hsp h2b,
            replaceBoldGo_succ_close fuel r p q c q2 h2 h2b]
          simp [List.append_assoc]
        | none =>
          cases h3 : splitAtNl q with
          | some pr3 =>
            obtain ⟨p2, q2⟩ := pr3
            rw [replaceBoldGo_succ_nl fuel _ _ _ _ _ hsp h2b h3,
              replaceBoldGo_succ_nl fuel r p q p2 q2 h2 h2b h3]
            simp [List.append_assoc]
          | none =>
            rw [replaceBoldGo_succ_stuck fuel _ _ _ hsp h2b h3,
              replaceBoldGo_succ_stuck fuel r p q h2 h2b h3]
    | some pr =>
      obtain ⟨pre, restl⟩ := pr
      have hdec := splitFirstPair_some l pre restl h1
      have hpreS := splitFirstPair_some_endsStar l pre restl h1
      have hnlrest : '\n' ∉ restl := by
        intro hc
        apply hnl
        rw [hdec.1]
        simp [List.mem_append, hc]
      have hlen1 : l.length = pre.length + 2 + restl.length := by
        rw [hdec.1]
        simp only [List.length_append, List.length_cons]
        omega
      have hsp : splitFirstPair (l ++ '\n' :: r) = some (pre, restl ++ '\n' :: r) := by
        rw [hdec.1]
        simp only [List.append_assoc, List.cons_append]
        exact splitFirstPair_decomp pre (restl ++ '\n' :: r) hdec.2 hpreS
      have hNo := splitFirstPairNoNl_append_nl restl r hnlrest
      cases h2 : splitFirstPair restl with
      | some pr2 =>
        obtain ⟨content, rest2⟩ := pr2
        have hdec2 := splitFirstPair_some restl content rest2 h2
        have h2c : splitFirstPairNoNl (restl ++ '\n' :: r) = some (content, rest2 ++ '\n' :: r) := by
          rw [hNo, h2]; rfl
        have hlen2 : restl.length = content.length + 2 + rest2.length := by
          rw [hdec2.1]
          simp only [List.length_append, List.length_cons]
          omega
        have hnl2 : '\n' ∉ rest2 := by
          intro hc
          apply hnlrest
          rw [hdec2.1]
          simp [List.mem_append, hc]
        rw [replaceBoldGo_succ_close fuel _ _ _ _ _ hsp h2c,
          replaceBoldGo_succ_close fuel l pre restl content rest2 h1
            (by rw [splitFirstPairNoNl_eq_of_no_nl restl hnlrest, h2]),
          ih rest2 r hnl2 (by omega),
          replaceBoldGo_fuel (fuel + 1) fuel r (by omega) (by omega)]
        simp [List.append_assoc]
      | none =>
        have h2c : splitFirstPairNoNl (restl ++ '\n' :: r) = none := by
          rw [hNo, h2]; rfl
        have h3c : splitAtNl (restl ++ '\n' :: r) = some (restl, r) :=
          splitAtNl_append restl r hnlrest
        rw [replaceBoldGo_succ_nl fuel _ _ _ _ _ hsp h2c h3c]
        rw [replaceBoldGo_succ_stuck fuel l pre restl h1
          (by rw [splitFirstPairNoNl_eq_of_no_nl restl hnlrest, h2])
          ((splitAtNl_none_iff restl).2 hnlrest)]
        rw [replaceBoldGo_fuel (fuel + 1) fuel r (by omega) (by omega)]
        conv_rhs => rw [hdec.1]

lemma replaceBoldAll_append_nl (l r : List Char) (h : '\n' ∉ l) :
    replaceBoldAll (l ++ '\n' :: r) = replaceBoldAll l ++ '\n' :: replaceBoldAll r := by
  have hlen : (l ++ '\n' :: r).length = l.length + r.length + 1 := by
    simp only [List.length_append, List.length_cons]
    omega
  rw [replaceBoldAll, replaceBoldAll, replaceBoldAll,
    replaceBoldGo_fuel (l ++ '\n' :: r).length (l.length + r.length + 1) (l ++ '\n' :: r)
      (Nat.le_refl _) (by omega),
    replaceBoldGo_append_nl (l.length + r.length + 1) l r h (Nat.le_refl _),
    replaceBoldGo_fuel (l.length + r.length + 1) l.length l (by omega) (Nat.le_refl _),
    replaceBoldGo_fuel (l.length + r.length + 1) r.length r (by omega) (Nat.le_refl _)]

lemma replaceBoldGo_prefix (fuel : Nat) (u v : List Char) (h1 : hasPair u = false)
    (h2 : endsStar u = false) :
    replaceBoldGo fuel (u ++ v) = u ++ replaceBoldGo fuel v := by
  cases fuel with
  | zero => rfl
  | succ fuel =>
    have hsp := splitFirstPair_append_of_noPair u v h1 h2
    cases h3 : splitFirstPair v with
    | none =>
      have hn : splitFirstPair (u ++ v) = none := by rw [hsp, h3]; rfl
      rw [replaceBoldGo_succ_none fuel _ hn, replaceBoldGo_succ_none fuel v h3]
    | some pr =>
      obtain ⟨p, q⟩ := pr
      have hspc : splitFirstPair (u ++ v) = some (u ++ p, q) := by rw [hsp, h3]; rfl
      cases h4 : splitFirstPairNoNl q with
      | some pr2 =>
        obtain ⟨c, q2⟩ := pr2
        rw [replaceBoldGo_succ_close fuel _ _ _ _ _ hspc h4,
          replaceBoldGo_succ_close fuel v p q c q2 h3 h4]
        simp [List.append_assoc]
      | none =>
        cases h5 : splitAtNl q with
        | some pr3 =>
          obtain ⟨p2, q2⟩ := pr3
          rw [replaceBoldGo_succ_nl fuel _ _ _ _ _ hspc h4 h5,
            replaceBoldGo_succ_nl fuel v p q p2 q2 h3 h4 h5]
          simp [List.append_assoc]
        | none =>
          rw [replaceBoldGo_succ_stuck fuel _ _ _ hspc h4 h5,
            replaceBoldGo_succ_stuck fuel v p q h3 h4 h5]

lemma replaceBoldAll_prefix (u v : List Char) (h1 : hasPair u = false)
    (h2 : endsStar u = false) :
    replaceBoldAll (u ++ v) = u ++ replaceBoldAll v := by
  rw [replaceBoldAll, replaceBoldAll, replaceBoldGo_prefix (u ++ v).length u v h1 h2,
    replaceBoldGo_fuel (u ++ v).length v.length v (by simp) (Nat.le_refl _)]

lemma noMatchB_append (u v : List Char) (h1 : hasPair u = false)
    (h2 : endsStar u = false) : noMatchB (u ++ v) = noMatchB v := by
  rw [noMatchB, noMatchB, splitFirstPair_append_of_noPair u v h1 h2]
  cases h : splitFirstPair v <;> rfl

lemma noMatchB_replaceBoldGo (fuel : Nat) : ∀ t : List Char, '\n' ∉ t →
    t.length ≤ fuel → noMatchB (replaceBoldGo fuel t) = true := by
  induction fuel with
  | zero =>
    intro t _ hlen
    have ht : t = [] := List.eq_nil_of_length_eq_zero (Nat.le_zero.mp hlen)
    subst ht
    rfl
  | succ fuel ih =>
    intro t hnl hlen
    cases h1 : splitFirstPair t with
    | none =>
      rw [replaceBoldGo_succ_none fuel t h1]
      simp [noMatchB, h1]
    | some pr =>
      obtain ⟨pre, rest⟩ := pr
      have hdec := splitFirstPair_some t pre rest h1
      have hpreS := splitFirstPair_some_endsStar t pre rest h1
      have hnlrest : '\n' ∉ rest := by
        intro hc
        apply hnl
        rw [hdec.1]
        simp [List.mem_append, hc]
      have hlen1 : t.length = pre.length + 2 + rest.length := by
        rw [hdec.1]
        simp only [List.length_append, List.length_cons]
        omega
      cases h2 : splitFirstPair rest with
      | none =>
        rw [replaceBoldGo_succ_stuck fuel t pre rest h1
          (by rw [splitFirstPairNoNl_eq_of_no_nl rest hnlrest, h2])
          ((splitAtNl_none_iff rest).2 hnlrest)]
        simp [noMatchB, h1, h2]
      | some pr2 =>
        obtain ⟨content, rest2⟩ := pr2
        have hdec2 := splitFirstPair_some rest content rest2 h2
        have hcontS := splitFirstPair_some_endsStar rest content rest2 h2
        have hnl2 : '\n' ∉ rest2 := by
          intro hc
          apply hnlrest
          rw [hdec2.1]
          simp [List.mem_append, hc]
        have hlen2 : rest.length = content.length + 2 + rest2.length := by
          rw [hdec2.1]
          simp only [List.length_append, List.length_cons]
          omega
        rw [replaceBoldGo_succ_close fuel t pre rest content rest2 h1
          (by rw [splitFirstPairNoNl_eq_of_no_nl rest hnlrest, h2])]
        rw [List.append_assoc, noMatchB_append pre _ hdec.2 hpreS,
          noMatchB_append content _ hdec2.2 hcontS]
        exact ih rest2 hnl2 (by omega)

lemma replaceBoldGo_of_noMatch (fuel : Nat) (t : List Char) (h : noMatchB t = true)
    (hnl : '\n' ∉ t) : replaceBoldGo fuel t = t := by
  cases fuel with
  | zero => rfl
  | succ fuel =>
    cases h1 : splitFirstPair t with
    | none => exact replaceBoldGo_succ_none fuel t h1
    | some pr =>
      obtain ⟨pre, rest⟩ := pr
      have h2 : splitFirstPair rest = none := by
        simp only [noMatchB, h1, Option.isNone_iff_eq_none] at h
        exact h
      have hnlrest : '\n' ∉ rest := by
        intro hc
        apply hnl
        rw [(splitFirstPair_some t pre rest h1).1]
        simp [List.mem_append, hc]
      exact replaceBoldGo_succ_stuck fuel t pre rest h1
        (by rw [splitFirstPairNoNl_eq_of_no_nl rest hnlrest, h2])
        ((splitAtNl_none_iff rest).2 hnlrest)

lemma noMatchB_tail (t : List Char) (h : noMatchB t = true) : noMatchB t.tail = true := by
  cases t with
  | nil => exact h
  | cons a t =>
    cases t with
    | nil => rfl
    | cons b rest =>
      by_cases hab : a = '*' ∧ b = '*'
      · have hsome : splitFirstPair (a :: b :: rest) = some ([], rest) := by
          rw [splitFirstPair, if_pos hab]
        have hrest : splitFirstPair rest = none := by
          simp only [noMatchB, hsome, Option.isNone_iff_eq_none] at h
          exact h
        have hrestPair : hasPair rest = false := (splitFirstPair_none_iff rest).1 hrest
        show noMatchB (b :: rest) = true
        cases rest with
        | nil => rfl
        | cons c r2 =>
          by_cases hbc : b = '*' ∧ c = '*'
          · have hsome2 : splitFirstPair (b :: c :: r2) = some ([], r2) := by
              rw [splitFirstPair, if_pos hbc]
            have hr2 : splitFirstPair r2 = none :=
              (splitFirstPair_none_iff r2).2 (hasPair_tail (c :: r2) hrestPair)
            simp [noMatchB, hsome2, hr2]
          · have hn : splitFirstPair (b :: c :: r2) = none := by
              rw [splitFirstPair, if_neg hbc, hrest]
              rfl
            simp [noMatchB, hn]
      · cases hs : splitFirstPair (b :: rest) with
        | none => simp [noMatchB, hs]
        | some pr =>
          obtain ⟨p, q⟩ := pr
          have hsome : splitFirstPair (a :: b :: rest) = some (a :: p, q) := by
            rw [splitFirstPair, if_neg hab, hs]
            rfl
          have hq : splitFirstPair q = none := by
            simp only [noMatchB, hsome, Option.isNone_iff_eq_none] at h
            exact h
          simp [noMatchB, hs, hq]

lemma noMatchB_drop (k : Nat) (t : List Char) (h : noMatchB t = true) :
    noMatchB (t.drop k) = true := by
  induction k with
  | zero => exact h
  | succ k ih => rw [← List.tail_drop]; exact noMatchB_tail _ ih

lemma replaceBoldAll_idem (t : List Char) (h : '\n' ∉ t) :
    replaceBoldAll (replaceBoldAll t) = replaceBoldAll t :=
  replaceBoldGo_of_noMatch (replaceBoldAll t).length (replaceBoldAll t)
    (noMatchB_replaceBoldGo t.length t h (Nat.le_refl _)) (replaceBoldAll_no_nl t h)

lemma replaceBoldAll_strip_idem (t : List Char) (h : '\n' ∉ t) :
    replaceBoldAll (stripBulletLine (replaceBoldAll t)) =
      stripBulletLine (replaceBoldAll t) := by
  have hnm : noMatchB (replaceBoldAll t) = true :=
    noMatchB_replaceBoldGo t.length t h (Nat.le_refl _)
  have hnl : '\n' ∉ replaceBoldAll t := replaceBoldAll_no_nl t h
  have hdnm : ∀ k : Nat, noMatchB ((replaceBoldAll t).drop k) = true :=
    fun k => noMatchB_drop k _ hnm
  have hdnl : ∀ k : Nat, '\n' ∉ (replaceBoldAll t).drop k :=
    fun k hc => hnl (List.mem_of_mem_drop hc)
  rw [stripBulletLine]
  by_cases hb : bulletMatch (replaceBoldAll t) = true
  · rw [if_pos hb]
    exact replaceBoldGo_of_noMatch _ _ (hdnm 2) (hdnl 2)
  · rw [if_neg hb]
    by_cases hsb : subBulletMatch (replaceBoldAll t) = true
    · rw [if_pos hsb]
      exact replaceBoldGo_of_noMatch _ _ (hdnm 4) (hdnl 4)
    · rw [if_neg hsb]
      exact replaceBoldGo_of_noMatch _ _ hnm hnl

lemma splitNl_ne_nil (t : List Char) : splitNl t ≠ [] := by
  cases t with
  | nil => simp [splitNl]
  | cons c rest =>
    rw [splitNl]
    by_cases hc : c = '\n'
    · rw [if_pos hc]; simp
    · rw [if_neg hc]
      cases h : splitNl rest <;> simp

lemma joinNl_splitNl (t : List Char) : joinNl (splitNl t) = t := by
  induction t with
  | nil => rfl
  | cons c rest ih =>
    rw [splitNl]
    by_cases hc : c = '\n'
    · rw [if_pos hc]
      cases h : splitNl rest with
      | nil => exact absurd h (splitNl_ne_nil rest)
      | cons l ls =>
        have hj : joinNl ([] :: l :: ls) = [] ++ '\n' :: joinNl (l :: ls) := rfl
        rw [hj, ← h, ih, hc]
        rfl
    · rw [if_neg hc]
      cases h : splitNl rest with
      | nil => exact absurd h (splitNl_ne_nil rest)
      | cons l ls =>
        cases ls with
        | nil =>
          have hrest : l = rest := by rw [h] at ih; exact ih
          rw [show joinNl [c :: l] = c :: l from rfl, hrest]
        | cons l2 ls2 =>
          have hrest : l ++ '\n' :: joinNl (l2 :: ls2) = rest := by rw [h] at ih; exact ih
          show (c :: l) ++ '\n' :: joinNl (l2 :: ls2) = c :: rest
          rw [List.cons_append, hrest]

lemma splitNl_no_nl : ∀ p : List Char, '\n' ∉ p → splitNl p = [p] := by
  intro p
  induction p with
  | nil => intro _; rfl
  | cons c p ih =>
    intro h
    have hc : ¬ c = '\n' := fun hcc => h (hcc ▸ List.mem_cons_self c p)
    rw [splitNl, if_neg hc, ih (fun hm => h (List.mem_cons_of_mem c hm))]

lemma splitNl_append_nl : ∀ p : List Char, ∀ x : List Char, '\n' ∉ p →
    splitNl (p ++ '\n' :: x) = p :: splitNl x := by
  intro p
  induction p with
  | nil =>
    intro x _
    rw [List.nil_append, splitNl, if_pos rfl]
  | cons c p ih =>
    intro x h
    have hc : ¬ c = '\n' := fun hcc => h (hcc ▸ List.mem_cons_self c _)
    rw [List.cons_append, splitNl, if_neg hc,
      ih x (fun hm => h (List.mem_cons_of_mem c hm))]

lemma splitNl_joinNl : ∀ parts : List (List Char), parts ≠ [] →
    (∀ p ∈ parts, '\n' ∉ p) → splitNl (joinNl parts) = parts := by
  intro parts
  induction parts with
  | nil => intro h _; exact absurd rfl h
  | cons p parts ih =>
    intro _ hmem
    cases parts with
    | nil => exact splitNl_no_nl p (hmem p (List.mem_cons_self p _))
    | cons p2 parts2 =>
      have hj : joinNl (p :: p2 :: parts2) = p ++ '\n' :: joinNl (p2 :: parts2) := rfl
      rw [hj, splitNl_append_nl p _ (hmem p (List.mem_cons_self p _)),
        ih (by simp) (fun q hq => hmem q (List.mem_cons_of_mem p hq))]

lemma splitNl_mem_no_nl : ∀ t : List Char, ∀ l ∈ splitNl t, '\n' ∉ l := by
  intro t
  induction t with
  | nil =>
    intro l hl
    rw [show splitNl [] = [[]] from rfl, List.mem_singleton] at hl
    subst hl
    simp
  | cons c rest ih =>
    intro l hl
    rw [splitNl] at hl
    by_cases hc : c = '\n'
    · rw [if_pos hc, List.mem_cons] at hl
      rcases hl with hl | hl
      · subst hl; simp
      · exact ih l hl
    · rw [if_neg hc] at hl
      cases h : splitNl rest with
      | nil => exact absurd h (splitNl_ne_nil rest)
      | cons l0 ls =>
        rw [h, List.mem_cons] at hl
        rcases hl with hl | hl
        · subst hl
          intro hm
          rw [List.mem_cons] at hm
          rcases hm with hm | hm
          · exact hc hm.symm
          · exact ih l0 (h ▸ List.mem_cons_self l0 ls) hm
        · exact ih l (h ▸ List.mem_cons_of_mem l0 hl)

lemma concatTexts_append2 (xs ys : List TextSegment) :
    concatTexts (xs ++ ys) = concatTexts xs ++ concatTexts ys := by
  simp [concatTexts]

lemma concatTexts_cons2 (x : TextSegment) (xs : List TextSegment) :
    concatTexts (x :: xs) = x.text ++ concatTexts xs := by
  simp [concatTexts]

lemma concatTexts_single (x : TextSegment) : concatTexts [x] = x.text := by
  simp [concatTexts]

lemma concatTexts_parseBoldGo (fuel : Nat) : ∀ t : List Char, ∀ isB : Bool, ∀ lvl : Int,
    '\n' ∉ t → concatTexts (parseBoldGo fuel t isB lvl) = replaceBoldGo fuel t := by
  induction fuel with
  | zero =>
    intro t isB lvl _
    rw [parseBoldGo]
    by_cases ht : t = []
    · rw [if_pos ht, ht]; rfl
    · rw [if_neg ht, concatTexts_single]
      rfl
  | succ fuel ih =>
    intro t isB lvl hnl
    cases h1 : splitFirstPair t with
    | none =>
      rw [parseBoldGo_succ_none fuel t isB lvl h1, replaceBoldGo_succ_none fuel t h1]
      by_cases ht : t = []
      · rw [if_pos ht, ht]; rfl
      · rw [if_neg ht, concatTexts_single]
    | some pr =>
      obtain ⟨pre, rest⟩ := pr
      have hdec := splitFirstPair_some t pre rest h1
      have hnlrest : '\n' ∉ rest := by
        intro hc
        apply hnl
        rw [hdec.1]
        simp [List.mem_append, hc]
      have ht : ¬ t = [] := by
        intro hc
        rw [hc] at h1
        simp [splitFirstPair] at h1
      cases h2 : splitFirstPair rest with
      | none =>
        rw [parseBoldGo_succ_noclose fuel t isB lvl pre rest h1 h2,
          replaceBoldGo_succ_stuck fuel t pre rest h1
            (by rw [splitFirstPairNoNl_eq_of_no_nl rest hnlrest, h2])
            ((splitAtNl_none_iff rest).2 hnlrest),
          if_neg ht, concatTexts_single]
      | some pr2 =>
        obtain ⟨content, rest2⟩ := pr2
        have hdec2 := splitFirstPair_some rest content rest2 h2
        have hnl2 : '\n' ∉ rest2 := by
          intro hc
          apply hnlrest
          rw [hdec2.1]
          simp [List.mem_append, hc]
        rw [parseBoldGo_succ_close fuel t isB lvl pre rest content rest2 h1 h2,
          replaceBoldGo_succ_close fuel t pre rest content rest2 h1
            (by rw [splitFirstPairNoNl_eq_of_no_nl rest hnlrest, h2]),
          concatTexts_append2, concatTexts_cons2, ih rest2 isB lvl hnl2]
        by_cases hpre : pre = []
        · rw [if_pos hpre, hpre]
          rfl
        · rw [if_neg hpre, concatTexts_single]
          simp [List.append_assoc]

lemma bulletMatch_decomp (line : List Char) (h : bulletMatch line = true) :
    line = '•' :: ' ' :: line.drop 2 := by
  cases line with
  | nil => simp [bulletMatch] at h
  | cons a l1 =>
    cases l1 with
    | nil => simp [bulletMatch] at h
    | cons b rest =>
      simp only [bulletMatch, Bool.and_eq_true, decide_eq_true_eq] at h
      rw [h.1, h.2]
      rfl

lemma subBulletMatch_decomp (line : List Char) (h : subBulletMatch line = true) :
    line = ' ' :: ' ' :: '◦' :: ' ' :: line.drop 4 := by
  cases line with
  | nil => simp [subBulletMatch] at h
  | cons a l1 =>
    cases l1 with
    | nil => simp [subBulletMatch] at h
    | cons b l2 =>
      cases l2 with
      | nil => simp [subBulletMatch] at h
      | cons c l3 =>
        cases l3 with
        | nil => simp [subBulletMatch] at h
        | cons d rest =>
          simp only [subBulletMatch, Bool.and_eq_true, decide_eq_true_eq] at h
          rw [h.1.1.1, h.1.1.2, h.1.2, h.2]
          rfl

lemma stripBulletLine_bullet (r : List Char) : stripBulletLine ('•' :: ' ' :: r) = r := by
  rw [stripBulletLine, if_pos (by simp [bulletMatch])]
  rfl

lemma stripBulletLine_sub (r : List Char) :
    stripBulletLine (' ' :: ' ' :: '◦' :: ' ' :: r) = r := by
  rw [stripBulletLine, if_neg (by simp [bulletMatch]), if_pos (by simp [subBulletMatch])]
  rfl

lemma stripBulletLine_of_no_mark (x : List Char) (h : hasBulletMark x = false) :
    stripBulletLine x = x := by
  rw [hasBulletMark, Bool.or_eq_false_iff] at h
  rw [stripBulletLine, if_neg (by simp [h.1]), if_neg (by simp [h.2])]

lemma stripBulletLine_subset (x : List Char) (c : Char) (hc : c ∈ stripBulletLine x) :
    c ∈ x := by
  rw [stripBulletLine] at hc
  by_cases hb : bulletMatch x = true
  · rw [if_pos hb] at hc
    exact List.mem_of_mem_drop hc
  · rw [if_neg hb] at hc
    by_cases hsb : subBulletMatch x = true
    · rw [if_pos hsb] at hc
      exact List.mem_of_mem_drop hc
    · rw [if_neg hsb] at hc
      exact hc

lemma replaceBoldAll_joinNl : ∀ parts : List (List Char), (∀ p ∈ parts, '\n' ∉ p) →
    replaceBoldAll (joinNl parts) = joinNl (parts.map replaceBoldAll) := by
  intro parts
  induction parts with
  | nil => intro _; rfl
  | cons p parts ih =>
    intro hmem
    cases parts with
    | nil => rfl
    | cons p2 parts2 =>
      have hj1 : joinNl (p :: p2 :: parts2) = p ++ '\n' :: joinNl (p2 :: parts2) := rfl
      rw [hj1, replaceBoldAll_append_nl p _ (hmem p (List.mem_cons_self p _)),
        ih (fun q hq => hmem q (List.mem_cons_of_mem p hq))]
      rfl

lemma CleanText_lines (s : List Char) :
    CleanText s =
      joinNl ((splitNl s).map (fun line => stripBulletLine (replaceBoldAll line))) := by
  rw [CleanText]
  have h1 : replaceBoldAll s = joinNl ((splitNl s).map replaceBoldAll) := by
    conv_lhs => rw [← joinNl_splitNl s]
    exact replaceBoldAll_joinNl (splitNl s) (splitNl_mem_no_nl s)
  have h2 : splitNl (joinNl ((splitNl s).map replaceBoldAll)) =
      (splitNl s).map replaceBoldAll := by
    apply splitNl_joinNl
    · intro hc
      rw [List.map_eq_nil_iff] at hc
      exact splitNl_ne_nil s hc
    · intro q hq
      rw [List.mem_map] at hq
      obtain ⟨l, hl, hql⟩ := hq
      rw [← hql]
      exact replaceBoldAll_no_nl l (splitNl_mem_no_nl s l hl)
  rw [h1, h2, List.map_map]
  rfl

lemma concatTexts_processLine (line : List Char) (h : '\n' ∉ line) :
    concatTexts (processLine line) = replaceBoldAll (stripBulletLine line) := by
  rw [processLine, stripBulletLine]
  by_cases hb : bulletMatch line = true
  · rw [if_pos hb, if_pos hb, parseBoldInText]
    exact concatTexts_parseBoldGo (line.drop 2).length (line.drop 2) true 0
      (fun hc => h (List.mem_of_mem_drop hc))
  · rw [if_neg hb, if_neg hb]
    by_cases hsb : subBulletMatch line = true
    · rw [if_pos hsb, if_pos hsb, parseBoldInText]
      exact concatTexts_parseBoldGo (line.drop 4).length (line.drop 4) true 1
        (fun hc => h (List.mem_of_mem_drop hc))
    · rw [if_neg hsb, if_neg hsb, parseBoldInText]
      exact concatTexts_parseBoldGo line.length line false 0 h

lemma concat_flatten_lines : ∀ lines : List (List Char), ∀ last : List Char,
    lines.getLastD [] = last → (∀ l ∈ lines.dropLast, l ≠ last) → lines ≠ [] →
    concatTexts ((lines.map (fun line =>
        processLine line ++ if line = last then [] else [newlineSegment])).flatten) =
      joinNl (lines.map (fun line => concatTexts (processLine line))) := by
  intro lines
  induction lines with
  | nil => intro last _ _ h; exact absurd rfl h
  | cons l lines ih =>
    intro last hl hdrop _
    cases lines with
    | nil =>
      have hll : l = last := by simpa [List.getLastD] using hl
      simp [hll, concatTexts_append2, joinNl]
    | cons l2 lines2 =>
      have hl2 : (l2 :: lines2).getLastD [] = last := by
        rw [List.getLastD_cons, List.getLastD_cons] at hl
        rw [List.getLastD_cons]
        exact hl
      have hlne : l ≠ last := by
        apply hdrop l
        rw [List.dropLast_cons₂]
        exact List.mem_cons_self l _
      rw [List.map_cons, List.flatten_cons, concatTexts_append2, if_neg hlne,
        concatTexts_append2, concatTexts_single,
        ih last hl2
          (fun q hq => hdrop q (by
            rw [List.dropLast_cons₂]
            exact List.mem_cons_of_mem l hq))
          (by simp)]
      have hjr : joinNl ((l :: l2 :: lines2).map (fun line => concatTexts (processLine line))) =
          concatTexts (processLine l) ++
            '\n' :: joinNl ((l2 :: lines2).map (fun line => concatTexts (processLine line))) := rfl
      rw [hjr]
      simp [newlineSegment, List.append_assoc]

lemma concatTexts_parseMarkup (s : List Char)
    (hlast : ∀ l ∈ (splitNl s).dropLast, l ≠ (splitNl s).getLastD []) :
    concatTexts (ParseMarkup s) =
      joinNl ((splitNl s).map (fun line => concatTexts (processLine line))) := by
  rw [ParseMarkup]
  exact concat_flatten_lines (splitNl s) ((splitNl s).getLastD []) rfl hlast (splitNl_ne_nil s)

lemma stripClean_processLine (line : List Char) (hnl : '\n' ∉ line)
    (hmark : hasBulletMark line = true →
      hasBulletMark (replaceBoldAll (stripBulletLine line)) = false) :
    stripBulletLine (replaceBoldAll (replaceBoldAll (stripBulletLine line))) =
      stripBulletLine (replaceBoldAll line) := by
  have hnlstrip : '\n' ∉ stripBulletLine line :=
    fun hc => hnl (stripBulletLine_subset line _ hc)
  rw [replaceBoldAll_idem _ hnlstrip]
  by_cases hb : bulletMatch line = true
  · have hstrip : stripBulletLine line = line.drop 2 := by
      rw [stripBulletLine, if_pos hb]
    have hpref : replaceBoldAll line = '•' :: ' ' :: replaceBoldAll (line.drop 2) := by
      conv_lhs => rw [bulletMatch_decomp line hb]
      exact replaceBoldAll_prefix ['•', ' '] (line.drop 2) (by decide) (by decide)
    rw [hstrip, hpref, stripBulletLine_bullet]
    apply stripBulletLine_of_no_mark
    rw [← hstrip]
    exact hmark (by simp [hasBulletMark, hb])
  · by_cases hsb : subBulletMatch line = true
    · have hstrip : stripBulletLine line = line.drop 4 := by
        rw [stripBulletLine, if_neg hb, if_pos hsb]
      have hpref : replaceBoldAll line =
          ' ' :: ' ' :: '◦' :: ' ' :: replaceBoldAll (line.drop 4) := by
        conv_lhs => rw [subBulletMatch_decomp line hsb]
        exact replaceBoldAll_prefix [' ', ' ', '◦', ' '] (line.drop 4) (by decide) (by decide)
      rw [hstrip, hpref, stripBulletLine_sub]
      apply stripBulletLine_of_no_mark
      rw [← hstrip]
      exact hmark (by simp [hasBulletMark, hsb])
    · have hstrip : stripBulletLine line = line := by
        rw [stripBulletLine, if_neg hb, if_neg hsb]
      rw [hstrip]

/-- Claim C3 (amended): `CleanText` applied to the concatenation of
`ParseMarkup`'s segment texts agrees with `CleanText` on the raw string
for every input in which (i) no recognized bullet line's stripped,
bold-stripped content again begins with a bullet or sub-bullet marker
(otherwise `CleanText` strips the re-exposed marker only on the
concatenation side), and (ii) no line before the last is textually equal
to the last line (otherwise `ParseMarkup`'s value-based last-line guard
drops a newline segment). -/
theorem cleanText_parse_roundtrip_amended (s : List Char)
    (h1 : (splitNl s).all (fun line => !hasBulletMark line ||
        !hasBulletMark (replaceBoldAll (stripBulletLine line))) = true)
    (h2 : ((splitNl s).dropLast).all
        (fun l => !decide (l = (splitNl s).getLastD [])) = true) :
    CleanText (concatTexts (ParseMarkup s)) = CleanText s := by
  have hlast : ∀ l ∈ (splitNl s).dropLast, l ≠ (splitNl s).getLastD [] := by
    rw [List.all_eq_true] at h2
    intro l hl
    simpa using h2 l hl
  have hmark : ∀ line ∈ splitNl s, hasBulletMark line = true →
      hasBulletMark (replaceBoldAll (stripBulletLine line)) = false := by
    rw [List.all_eq_true] at h1
    intro line hline hmk
    have hthis := h1 line hline
    rw [Bool.or_eq_true, Bool.not_eq_true', Bool.not_eq_true'] at hthis
    rcases hthis with hthis | hthis
    · rw [hmk] at hthis; cases hthis
    · exact hthis
  rw [concatTexts_parseMarkup s hlast]
  have hparts : (splitNl s).map (fun line => concatTexts (processLine line)) =
      (splitNl s).map (fun line => replaceBoldAll (stripBulletLine line)) :=
    List.map_congr_left
      (fun line hline => concatTexts_processLine line (splitNl_mem_no_nl s line hline))
  rw [hparts, CleanText_lines s, CleanText]
  have hXnl : ∀ p ∈ (splitNl s).map (fun line => replaceBoldAll (stripBulletLine line)),
      '\n' ∉ p := by
    intro p hp
    rw [List.mem_map] at hp
    obtain ⟨line, hline, hpl⟩ := hp
    rw [← hpl]
    exact replaceBoldAll_no_nl _
      (fun hc => splitNl_mem_no_nl s line hline (stripBulletLine_subset line _ hc))
  rw [replaceBoldAll_joinNl _ hXnl,
    splitNl_joinNl _
      (by
        intro hc
        rw [List.map_eq_nil_iff] at hc
        rw [List.map_eq_nil_iff] at hc
        exact splitNl_ne_nil s hc)
      (by
        intro q hq
        rw [List.mem_map] at hq
        obtain ⟨p, hp, hqp⟩ := hq
        rw [← hqp]
        exact replaceBoldAll_no_nl p (hXnl p hp)),
    List.map_map, List.map_map]
  apply congrArg joinNl
  apply List.map_congr_left
  intro line hline
  simp only [Function.comp]
  exact stripClean_processLine line (splitNl_mem_no_nl s line hline) (hmark line hline)

/-- Claim C3 (amended, witness): a concrete input satisfying both side
conditions on which the round-trip equality holds. -/
theorem cleanText_parse_roundtrip_amended_witness :
    (splitNl (str "**a** b\n• **c** d")).all (fun line => !hasBulletMark line ||
        !hasBulletMark (replaceBoldAll (stripBulletLine line))) = true ∧
      ((splitNl (str "**a** b\n• **c** d")).dropLast).all
        (fun l => !decide (l = (splitNl (str "**a** b\n• **c** d")).getLastD [])) = true ∧
      CleanText (concatTexts (ParseMarkup (str "**a** b\n• **c** d"))) =
        CleanText (str "**a** b\n• **c** d") :=
  ⟨by decide, by decide,
    cleanText_parse_roundtrip_amended (str "**a** b\n• **c** d") (by decide) (by decide)⟩

/-- Claim C4 (amended): `CleanText` is idempotent on every input in which
no line, after bold-stripping and one bullet-prefix strip, again begins
with a bullet or sub-bullet marker; in general a second application may
strip a newly exposed marker (see the counterexample). -/
theorem cleanText_idempotent_amended (s : List Char)
    (h : (splitNl s).all
        (fun line => !hasBulletMark (stripBulletLine (replaceBoldAll line))) = true) :
    CleanText (CleanText s) = CleanText s := by
  have hmark : ∀ line ∈ splitNl s,
      hasBulletMark (stripBulletLine (replaceBoldAll line)) = false := by
    rw [List.all_eq_true] at h
    intro line hline
    simpa using h line hline
  rw [CleanText_lines s, CleanText]
  have hXnl : ∀ p ∈ (splitNl s).map (fun line => stripBulletLine (replaceBoldAll line)),
      '\n' ∉ p := by
    intro p hp
    rw [List.mem_map] at hp
    obtain ⟨line, hline, hpl⟩ := hp
    rw [← hpl]
    intro hc
    exact splitNl_mem_no_nl s line hline
      (replaceBoldGo_subset line.length line '\n' (stripBulletLine_subset _ _ hc))
  rw [replaceBoldAll_joinNl _ hXnl,
    splitNl_joinNl _
      (by
        intro hc
        rw [List.map_eq_nil_iff] at hc
        rw [List.map_eq_nil_iff] at hc
        exact splitNl_ne_nil s hc)
      (by
        intro q hq
        rw [List.mem_map] at hq
        obtain ⟨p, hp, hqp⟩ := hq
        rw [← hqp]
        exact replaceBoldAll_no_nl p (hXnl p hp)),
    List.map_map, List.map_map]
  apply congrArg joinNl
  apply List.map_congr_left
  intro line hline
  have hnl := splitNl_mem_no_nl s line hline
  simp only [Function.comp]
  rw [replaceBoldAll_strip_idem line hnl]
  exact stripBulletLine_of_no_mark _ (hmark line hline)

/-- Claim C4 (amended, witness): a concrete input satisfying the side
condition on which `CleanText` is idempotent. -/
theorem cleanText_idempotent_amended_witness :
    (splitNl (str "• **a** b")).all
        (fun line => !hasBulletMark (stripBulletLine (replaceBoldAll line))) = true ∧
      CleanText (CleanText (str "• **a** b")) = CleanText (str "• **a** b") :=
  ⟨by decide, cleanText_idempotent_amended (str "• **a** b") (by decide)⟩

end Formatting
